import Mathlib

/-! circuitgen: type introspection and signature synthesis

A shallow embedding of `parsing.go` and `template_models.go`, and of the generated
wrapper `aggregator.gen.go` with the struct `Aggregator` it wraps.

Conventions of the embedding:

* Go slices are Lean lists (a nil slice and an empty slice are both `[]`).
* A Go function returning `(v, error)` whose callers only look at `v` when the error
  is nil is an `Except Err`; `parseType`, whose zero-valued first component matters,
  returns the pair itself.
* A run-time panic (slice bounds, index out of range, nil dereference) is an explicit
  `Panic` outcome.
* The `go/types` and `x/tools` library calls whose results depend on the loaded program
  (`Underlying`, `IntuitiveMethodSet`, `TypeString`) are fields of `TypesEnv`.
-/

namespace Circuitgen

/-! ## The `go/types` data the generator reads -/

/-- The part of `types.Package` the generator reads: `Path()` and `Name()`. -/
structure Package where
  Path : String
  Name : String
  deriving Repr, DecidableEq

/-- The shapes of `types.Type`. `Named` carries `Obj().Pkg()` (nil for builtins such
as `error`) and `Obj().Name()`; its underlying type is not a sub-term, so a named type
may be recursive. `Array` and `Chan` stand for the shapes the generator does not
enumerate. -/
inductive GoType where
  | Basic (name : String)
  | Named (pkg : Option Package) (name : String)
  | Pointer (elem : GoType)
  | Slice (elem : GoType)
  | Array (len : Nat) (elem : GoType)
  | Map (key : GoType) (elem : GoType)
  | Chan (elem : GoType)
  | Signature (params : List GoType) (results : List GoType) (variadic : Bool)
  | Interface (methods : List GoType)
  | Struct (fields : List GoType)
  deriving Repr

/-- The part of `types.Selection` the generator reads: `Obj().Name()`,
`Obj().Exported()` and `Type()` (the field `Typ`). -/
structure Selection where
  Name : String
  Exported : Bool
  Typ : GoType
  deriving Repr

/-- The errors built by `fmt.Errorf` and `errors.New` in `parsing.go`. -/
inductive Err where
  /-- The text is "empty methodset. %v has no exported methods". -/
  | emptyMethodSet (t : GoType)
  /-- The text is "method %s is not a signature". -/
  | notASignature (m : Selection)
  /-- The text is "not a named type". -/
  | notANamedType
  /-- The text is "resolvePkgPaths: invalid type: %v". -/
  | invalidType (t : GoType)
  deriving Repr

/-- The library calls of `go/types` and `golang.org/x/tools/go/types/typeutil` whose
result depends on the loaded program. -/
structure TypesEnv where
  /-- The method `Underlying()` of a type. -/
  Underlying : GoType → GoType
  /-- The function `typeutil.IntuitiveMethodSet(t, nil)`. -/
  IntuitiveMethodSet : GoType → List Selection
  /-- The function `types.TypeString(t, qualifier)`. -/
  TypeString : GoType → (Package → String) → String

/-- Run-time panics of the Go program. -/
inductive Panic where
  | sliceBoundsOutOfRange
  | indexOutOfRange
  | nilDereference
  deriving Repr, DecidableEq

/-! ## The structs of `template_models.go` -/

/-- The struct `TypeInfo`. -/
structure TypeInfo where
  Name : String
  NameWithoutQualifier : String
  IsInterface : Bool
  deriving Repr, DecidableEq

/-- The struct `Import`. -/
structure Import where
  Path : String
  deriving Repr, DecidableEq

/-- The struct `Method`. -/
structure Method where
  Name : String
  Params : List TypeInfo
  Results : List TypeInfo
  Variadic : Bool
  deriving Repr, DecidableEq

/-- The struct `TypeMetadata`. -/
structure TypeMetadata where
  PackageName : String
  PackagePath : String
  TypeInfo : TypeInfo
  Imports : List Import
  Methods : List Method
  deriving Repr, DecidableEq

/-- The zero value `TypeMetadata{}`. -/
def TypeMetadata.zero : TypeMetadata :=
  { PackageName := "", PackagePath := "",
    TypeInfo := { Name := "", NameWithoutQualifier := "", IsInterface := false },
    Imports := [], Methods := [] }

/-! ## `parsing.go` -/

/-- Go's `strings.Index(s, sub)` on the characters of the strings: the offset of the
first occurrence of `sub` in `s`, `none` for Go's `-1`. -/
def stringsIndex : List Char → List Char → Option Nat
  | [], sub => if sub = [] then some 0 else none
  | c :: cs, sub =>
    if sub.isPrefixOf (c :: cs) then some 0
    else (stringsIndex cs sub).map (· + 1)

/-- The constant `vendor` of `stripVendor`. -/
def vendor : String := "/vendor/"

/-- Embedding of `stripVendor`: `path[i+len(vendor):]` when `strings.Index` finds
`vendor` at `i`, the path itself otherwise. `vendor` is ASCII, so the byte offsets of
the source and the character offsets used here cut at the same place. -/
def stripVendor (path : String) : String :=
  match stringsIndex path.data vendor.data with
  | some i => ⟨path.data.drop (i + vendor.data.length)⟩
  | none => path

mutual
/-- Embedding of `resolvePkgPaths`: the type switch, with the two loops of the
`*types.Signature` case as `resolvePkgPathsTuple`. -/
def resolvePkgPaths : GoType → Except Err (List String)
  | .Signature params results _ =>
    match resolvePkgPathsTuple params [] with
    | .error err => .error err
    | .ok r =>
      match resolvePkgPathsTuple results r with
      | .error err => .error err
      | .ok r => .ok r
  | .Pointer elem => resolvePkgPaths elem
  | .Map key elem =>
    match resolvePkgPaths key with
    | .error err => .error err
    | .ok keyPaths =>
      match resolvePkgPaths elem with
      | .error err => .error err
      | .ok elemPaths => .ok (keyPaths ++ elemPaths)
  | .Slice elem => resolvePkgPaths elem
  | .Named pkg _ =>
    match pkg with
    | some pkg => .ok [stripVendor pkg.Path]
    | none => .ok []
  | .Basic _ => .ok []
  | .Interface _ => .ok []
  | .Struct _ => .ok []
  | .Array n elem => .error (.invalidType (.Array n elem))
  | .Chan elem => .error (.invalidType (.Chan elem))
/-- One loop of the `*types.Signature` case: for each variable of the tuple in order,
`paths, err := resolvePkgPaths(...)`, return on error, else `r = append(r, paths...)`. -/
def resolvePkgPathsTuple : List GoType → List String → Except Err (List String)
  | [], r => .ok r
  | t :: ts, r =>
    match resolvePkgPaths t with
    | .error err => .error err
    | .ok paths => resolvePkgPathsTuple ts (r ++ paths)
end

/-- The map `m` of `uniqueStringSlice` is the list of its keys; `paths` is the slice
being built. One iteration of the loop over `s`. -/
def uniqueStringSliceStep (st : List String × List String) (p : String) :
    List String × List String :=
  if p ∈ st.1 then st else (p :: st.1, st.2 ++ [p])

/-- Embedding of `uniqueStringSlice`. -/
def uniqueStringSlice (s : List String) : List String :=
  (s.foldl uniqueStringSliceStep ([], [])).2

/-- Embedding of `typePackagePath`. A `*types.Named` of this model always has an
object, so the `tn.Obj() == nil` test never fires. -/
def typePackagePath : GoType → String
  | .Named (some pkg) _ => stripVendor pkg.Path
  | .Named none _ => ""
  | _ => ""

/-- The first loop of `parseImports`: for each selection in order,
`resolvePkgPaths(m.Type())`, return on error, else append to `pkgPaths`. -/
def parseImportsPaths : List Selection → List String → Except Err (List String)
  | [], pkgPaths => .ok pkgPaths
  | m :: ms, pkgPaths =>
    match resolvePkgPaths m.Typ with
    | .error err => .error err
    | .ok paths => parseImportsPaths ms (pkgPaths ++ paths)

/-- Embedding of `parseImports`. -/
def parseImports (t : GoType) (mset : List Selection) (outPkgPath : String) :
    Except Err (List Import) :=
  match parseImportsPaths mset [] with
  | .error err => .error err
  | .ok pkgPaths =>
    let inPkg : Bool := typePackagePath t == outPkgPath
    let imports : List Import := if !inPkg then [{ Path := typePackagePath t }] else []
    .ok ((uniqueStringSlice pkgPaths).foldl
      (fun imports path =>
        if !inPkg || (inPkg && path != outPkgPath) then imports ++ [{ Path := path }]
        else imports)
      imports)

/-- The function `types.IsInterface`: the underlying type is an interface. -/
def IsInterface (env : TypesEnv) (t : GoType) : Bool :=
  match env.Underlying t with
  | .Interface _ => true
  | _ => false

/-- Embedding of `typeInfo`. -/
def typeInfo (env : TypesEnv) (t : GoType) (outPkgPath : String) : TypeInfo :=
  { Name := env.TypeString t (fun pkg => if pkg.Path == outPkgPath then "" else pkg.Name),
    NameWithoutQualifier := env.TypeString t (fun _ => ""),
    IsInterface := IsInterface env t }

/-- Embedding of `parseTuple`: the loop appends `typeInfo` of each variable's type. -/
def parseTuple (env : TypesEnv) (tuple : List GoType) (outPkgPath : String) : List TypeInfo :=
  tuple.foldl (fun vars v => vars ++ [typeInfo env v outPkgPath]) []

/-- The variable `mset` of `methodSet`: `IntuitiveMethodSet` of the underlying type
for an interface, of the type itself otherwise. -/
def methodSetIntuitive (env : TypesEnv) (t : GoType) : List Selection :=
  if IsInterface env t then env.IntuitiveMethodSet (env.Underlying t)
  else env.IntuitiveMethodSet t

/-- Embedding of `methodSet`: the loop appends the exported selections of `mset`. -/
def methodSet (env : TypesEnv) (t : GoType) : List Selection :=
  (methodSetIntuitive env t).foldl
    (fun exported m => if m.Exported then exported ++ [m] else exported) []

/-- The loop of `parseType` over the method set: a selection whose type is not a
signature returns the error, any other appends its `Method`. -/
def parseTypeMethods (env : TypesEnv) (outPkgPath : String) :
    List Selection → List Method → Except Err (List Method)
  | [], methods => .ok methods
  | m :: ms, methods =>
    match m.Typ with
    | .Signature params results variadic =>
      parseTypeMethods env outPkgPath ms
        (methods ++ [{ Name := m.Name,
                       Params := parseTuple env params outPkgPath,
                       Results := parseTuple env results outPkgPath,
                       Variadic := variadic }])
    | _ => .error (.notASignature m)

/-- Embedding of `parseType`. The Go function returns the pair `(TypeMetadata, error)`;
`tn.Obj().Pkg().Name()` dereferences a nil package for a named type without one. -/
def parseType (env : TypesEnv) (t : GoType) (outPkgPath : String) :
    Except Panic (TypeMetadata × Option Err) :=
  let mset := methodSet env t
  if mset.length = 0 then .ok (TypeMetadata.zero, some (.emptyMethodSet t))
  else
    match parseImports t mset outPkgPath with
    | .error err => .ok (TypeMetadata.zero, some err)
    | .ok imports =>
      match parseTypeMethods env outPkgPath mset [] with
      | .error err => .ok (TypeMetadata.zero, some err)
      | .ok methods =>
        match t with
        | .Named (some pkg) _ =>
          .ok ({ PackageName := pkg.Name,
                 PackagePath := stripVendor pkg.Path,
                 TypeInfo := typeInfo env t outPkgPath,
                 Imports := imports,
                 Methods := methods }, none)
        | .Named none _ => .error .nilDereference
        | _ => .ok (TypeMetadata.zero, some .notANamedType)

/-! ## `template_models.go` -/

/-- Go's `s[lo:]` on a string: `lo` is a byte offset, and the expression panics when
it exceeds the byte length. The generator cuts only after the ASCII `sliceChars`; an
offset inside a multi-byte character would leave bytes a Lean `String` cannot hold. -/
def sliceFrom (s : String) (lo : Nat) : Except Panic String :=
  if lo ≤ s.utf8ByteSize then .ok (s.extract ⟨lo⟩ s.endPos)
  else .error .sliceBoundsOutOfRange

/-- The constant `sliceChars` of `ParamsSignature`. -/
def sliceChars : String := "[]"

/-- The body of the loop of `ParamsSignature` at index `i`, from the accumulated `s`. -/
def Method.ParamsSignatureStep (m : Method) (overrides : List String) (s : String)
    (i : Nat) : Except Panic String :=
  let mt := m.Params
  let l := mt.length
  let varName : String :=
    if h : i < overrides.length then overrides[i] else "p" ++ toString i
  match mt[i]? with
  | none => .error .indexOutOfRange
  | some mti =>
    if i == l - 1 && m.Variadic then
      match sliceFrom mti.Name sliceChars.utf8ByteSize with
      | .error e => .error e
      | .ok elem => .ok (s ++ (varName ++ " ..." ++ elem))
    else
      let s := s ++ (varName ++ " " ++ mti.Name)
      if i < l - 1 then .ok (s ++ ", ") else .ok s

/-- Embedding of `Method.ParamsSignature`. -/
def Method.ParamsSignature (m : Method) (overrides : List String) : Except Panic String :=
  (List.range m.Params.length).foldlM (m.ParamsSignatureStep overrides) ""

/-- Go's `strings.HasSuffix`. -/
def stringsHasSuffix (s suffix : String) : Bool :=
  suffix.data.isSuffixOf s.data

/-- Embedding of `Method.IsWrappingSupported`. -/
def Method.IsWrappingSupported (m : Method) : Except Panic Bool :=
  if m.Params.length == 0 || m.Results.length == 0 then .ok false
  else
    match m.Params[0]?, m.Results[m.Results.length - 1]? with
    | some p0, some rl =>
      let supportsContext := stringsHasSuffix p0.Name "Context"
      let returnsAnError : Bool := rl.Name == "error"
      .ok (supportsContext && returnsAnError)
    | _, _ => .error .indexOutOfRange

/-- The body of the loop of `CallSignatureWithClosure` at index `i`. -/
def Method.CallSignatureWithClosureStep (m : Method) (s : String) (i : Nat) : String :=
  let l := m.Params.length
  if i == l - 1 && m.Variadic then
    s ++ ("p" ++ toString i ++ "...")
  else
    let s := if i == 0 then s ++ "ctx" else s ++ ("p" ++ toString i)
    if i < l - 1 then s ++ ", " else s

/-- Embedding of `Method.CallSignatureWithClosure`. -/
def Method.CallSignatureWithClosure (m : Method) : String :=
  (List.range m.Params.length).foldl m.CallSignatureWithClosureStep ""

/-- The body of the loop of `ResultsSignature` at index `i`. -/
def Method.ResultsSignatureStep (m : Method) (s : String) (i : Nat) : Except Panic String :=
  let mt := m.Results
  let l := mt.length
  match mt[i]? with
  | none => .error .indexOutOfRange
  | some mti =>
    if i == l - 1 then .ok (s ++ mti.Name) else .ok (s ++ (mti.Name ++ ", "))

/-- Embedding of `Method.ResultsSignature`. -/
def Method.ResultsSignature (m : Method) : Except Panic String :=
  let mt := m.Results
  if mt.length == 1 then
    match mt[0]? with
    | none => .error .indexOutOfRange
    | some mt0 => .ok mt0.Name
  else
    match (List.range mt.length).foldlM m.ResultsSignatureStep "(" with
    | .error e => .error e
    | .ok s => .ok (s ++ ")")

/-- Go's `xs[:hi]` on a slice whose capacity is its length: a panic unless
`0 ≤ hi ≤ len(xs)`. -/
def sliceTo {α : Type} (xs : List α) (hi : Int) : Except Panic (List α) :=
  if 0 ≤ hi ∧ hi ≤ (xs.length : Int) then .ok (xs.take hi.toNat)
  else .error .sliceBoundsOutOfRange

/-- Embedding of `Method.ResultsClosureVariableDeclarations`. -/
def Method.ResultsClosureVariableDeclarations (m : Method) : Except Panic String :=
  match sliceTo m.Results ((m.Results.length : Int) - 1) with
  | .error e => .error e
  | .ok rs =>
    .ok (rs.enum.foldl
      (fun s it => s ++ ("var r" ++ toString it.1 ++ " " ++ it.2.Name ++ "\n")) "")

/-- Embedding of `Method.HasOneMethodResultVariable`. -/
def Method.HasOneMethodResultVariable (m : Method) : Bool :=
  m.Results.length == 1

/-- Embedding of `Method.ResultsCircuitVariableAssignments`. -/
def Method.ResultsCircuitVariableAssignments (m : Method) : Except Panic String :=
  match sliceTo m.Results ((m.Results.length : Int) - 1) with
  | .error e => .error e
  | .ok rs =>
    let s := (List.range rs.length).foldl (fun s i => s ++ ("r" ++ toString i ++ ", ")) ""
    .ok (s ++ "err")

/-- Embedding of `Method.ResultsClosureVariableReturns`. -/
def Method.ResultsClosureVariableReturns (m : Method) : Except Panic String :=
  match sliceTo m.Results ((m.Results.length : Int) - 1) with
  | .error e => .error e
  | .ok rs =>
    .ok ((List.range rs.length).foldl (fun s i => s ++ ("r" ++ toString i ++ ", ")) "")

/-! ## The generated wrapper `aggregator.gen.go` and the struct it wraps -/

/-- The non-nil values of Go's `error` as far as the wrapper tells them apart: a
`*circuit.SimpleBadRequest`, which points to a struct with the field `Err` or is the
nil pointer (an interface value that holds a nil pointer is itself not nil), or any
other error. Go's `error` itself is `Option GoError`, `none` being nil. -/
inductive GoError where
  | other (text : String)
  | SimpleBadRequest (Err : Option GoError)
  | nilSimpleBadRequest
  deriving Repr

/-- Go's `int` addition on a 64-bit platform: two's complement wrap-around. -/
def wrapInt64 (x : Int) : Int :=
  (x + 2 ^ 63) % 2 ^ 64 - 2 ^ 63

/-- The struct `Aggregator` of `aggregator.go`. -/
structure Aggregator where
  IncSumError : Option GoError
  sum : Int
  deriving Repr

/-- Embedding of `(*Aggregator).IncSum`: the updated struct and the returned error.
The context argument is not read. -/
def Aggregator.IncSum (a : Aggregator) (v : Int) : Aggregator × Option GoError :=
  ({ a with sum := wrapInt64 (a.sum + v) }, a.IncSumError)

/-- Embedding of `(*Aggregator).Sum`. -/
def Aggregator.Sum (a : Aggregator) : Int :=
  a.sum

/-- What the closure passed to `Run` in the wrapper's `IncSum` reads and writes: the
local `skippedErr` and the embedded aggregator. -/
structure ClosureVars where
  skippedErr : Option GoError
  Aggregator : Aggregator

/-- The part of `*circuit.Circuit` the wrapper uses: `Run`, given the closure and the
variables it captures, returns an error and leaves the variables as the closure (if
run) left them. -/
structure Circuit where
  Run : (ClosureVars → Option GoError × ClosureVars) → ClosureVars →
    Option GoError × ClosureVars

/-- The part of `*circuit.Manager` the constructor uses: `CreateCircuit(name, configs...)`
with the type `κ` of `circuit.Config`. -/
structure Manager (κ : Type) where
  CreateCircuit : String → List κ → Except GoError Circuit

/-- The struct `CircuitWrapperAggregatorConfig`; a nil predicate is `none`. -/
structure CircuitWrapperAggregatorConfig (κ : Type) where
  ShouldSkipError : Option (Option GoError → Bool)
  IsBadRequest : Option (Option GoError → Bool)
  Prefix : String
  Defaults : κ
  CircuitIncSum : κ

/-- The struct `CircuitWrapperAggregator`, with the predicates the constructor has
made non-nil. -/
structure CircuitWrapperAggregator where
  Aggregator : Aggregator
  ShouldSkipError : Option GoError → Bool
  IsBadRequest : Option GoError → Bool
  CircuitIncSum : Circuit

/-- Embedding of `NewCircuitWrapperAggregator`: a nil predicate of the configuration
is replaced by the function that returns false, then the circuit is created. -/
def NewCircuitWrapperAggregator {κ : Type} (manager : Manager κ) (embedded : Aggregator)
    (conf : CircuitWrapperAggregatorConfig κ) : Except GoError CircuitWrapperAggregator :=
  let shouldSkipError : Option GoError → Bool :=
    match conf.ShouldSkipError with
    | none => fun _ => false
    | some f => f
  let isBadRequest : Option GoError → Bool :=
    match conf.IsBadRequest with
    | none => fun _ => false
    | some f => f
  match manager.CreateCircuit (conf.Prefix ++ "Aggregator.IncSum")
      [conf.CircuitIncSum, conf.Defaults] with
  | .error err => .error err
  | .ok circuit =>
    .ok { Aggregator := embedded, ShouldSkipError := shouldSkipError,
          IsBadRequest := isBadRequest, CircuitIncSum := circuit }

/-- The closure that the wrapper's `IncSum` passes to `Run`. -/
def CircuitWrapperAggregator.IncSumClosure (w : CircuitWrapperAggregator) (p1 : Int)
    (vars : ClosureVars) : Option GoError × ClosureVars :=
  let (agg, err) := vars.Aggregator.IncSum p1
  if w.ShouldSkipError err then
    (none, { skippedErr := err, Aggregator := agg })
  else if w.IsBadRequest err then
    (some (.SimpleBadRequest err), { vars with Aggregator := agg })
  else
    (err, { vars with Aggregator := agg })

/-- Embedding of the wrapper's `IncSum`: the returned error and the wrapper with the
embedded aggregator as the call left it. The type assertion
`err.(*circuit.SimpleBadRequest)` succeeds on every error of that type, the nil
pointer included, and `berr.Err` then dereferences it. -/
def CircuitWrapperAggregator.IncSum (w : CircuitWrapperAggregator) (p1 : Int) :
    Except Panic (Option GoError × CircuitWrapperAggregator) :=
  let vars : ClosureVars := { skippedErr := none, Aggregator := w.Aggregator }
  let (err, vars) := w.CircuitIncSum.Run (w.IncSumClosure p1) vars
  let err := if vars.skippedErr.isSome then vars.skippedErr else err
  match err with
  | some (.SimpleBadRequest berr) => .ok (berr, { w with Aggregator := vars.Aggregator })
  | some .nilSimpleBadRequest => .error .nilDereference
  | _ => .ok (err, { w with Aggregator := vars.Aggregator })

/-! ## The traversal under a bound on its call depth -/

mutual
/-- The function `resolvePkgPaths` run with a bound on the depth of its call stack:
each call uses one unit, and the result is `none` when a call finds the bound used
up. -/
def resolvePkgPathsFuel : GoType → Nat → Option (Except Err (List String))
  | _, 0 => none
  | .Signature params results _, fuel + 1 =>
    match resolvePkgPathsTupleFuel params [] fuel with
    | none => none
    | some (.error err) => some (.error err)
    | some (.ok r) =>
      match resolvePkgPathsTupleFuel results r fuel with
      | none => none
      | some (.error err) => some (.error err)
      | some (.ok r) => some (.ok r)
  | .Pointer elem, fuel + 1 => resolvePkgPathsFuel elem fuel
  | .Map key elem, fuel + 1 =>
    match resolvePkgPathsFuel key fuel with
    | none => none
    | some (.error err) => some (.error err)
    | some (.ok keyPaths) =>
      match resolvePkgPathsFuel elem fuel with
      | none => none
      | some (.error err) => some (.error err)
      | some (.ok elemPaths) => some (.ok (keyPaths ++ elemPaths))
  | .Slice elem, fuel + 1 => resolvePkgPathsFuel elem fuel
  | .Named pkg _, _ + 1 =>
    match pkg with
    | some pkg => some (.ok [stripVendor pkg.Path])
    | none => some (.ok [])
  | .Basic _, _ + 1 => some (.ok [])
  | .Interface _, _ + 1 => some (.ok [])
  | .Struct _, _ + 1 => some (.ok [])
  | .Array n elem, _ + 1 => some (.error (.invalidType (.Array n elem)))
  | .Chan elem, _ + 1 => some (.error (.invalidType (.Chan elem)))
/-- One loop of the `*types.Signature` case under the same bound: the calls it makes
are one level below the call that runs the loop. -/
def resolvePkgPathsTupleFuel :
    List GoType → List String → Nat → Option (Except Err (List String))
  | [], r, _ => some (.ok r)
  | t :: ts, r, fuel =>
    match resolvePkgPathsFuel t fuel with
    | none => none
    | some (.error err) => some (.error err)
    | some (.ok paths) => resolvePkgPathsTupleFuel ts (r ++ paths) fuel
end

mutual
/-- The depth of the calls `resolvePkgPaths` makes on a type: one for a type it does
not enter (named, basic, interface, struct, and the shapes it rejects), one more than
the deepest type it enters otherwise. -/
def callDepth : GoType → Nat
  | .Signature params results _ => max (callDepthTuple params) (callDepthTuple results) + 1
  | .Pointer elem => callDepth elem + 1
  | .Map key elem => max (callDepth key) (callDepth elem) + 1
  | .Slice elem => callDepth elem + 1
  | .Named _ _ => 1
  | .Basic _ => 1
  | .Interface _ => 1
  | .Struct _ => 1
  | .Array _ _ => 1
  | .Chan _ => 1
/-- The deepest call depth among the types of a tuple. -/
def callDepthTuple : List GoType → Nat
  | [] => 0
  | t :: ts => max (callDepth t) (callDepthTuple ts)
end

/-! ## Stating what `parseType` builds -/

/-- The `Method` that `parseType` builds from a selection. -/
def IsMethodOf (env : TypesEnv) (out : String) (meth : Method) (s : Selection) : Prop :=
  ∃ params results variadic, s.Typ = .Signature params results variadic ∧
    meth = { Name := s.Name,
             Params := params.map (fun v => typeInfo env v out),
             Results := results.map (fun v => typeInfo env v out),
             Variadic := variadic }

/-- The text of parameter `i` in the signature. -/
def paramText (m : Method) (overrides : List String) (i : Nat) : String :=
  (overrides[i]?).getD ("p" ++ toString i) ++ " " ++ ((m.Params[i]?).map TypeInfo.Name).getD ""

/-- The argument `CallSignatureWithClosure` writes at a position that is not the
variadic last one. -/
def callArg (i : Nat) : String :=
  if i = 0 then "ctx" else "p" ++ toString i

/-! ## Shapes the traversal does not enumerate -/

/-- A type holds a shape outside the cases of the type switch of `resolvePkgPaths`
(an array or a channel here), either directly or under pointer, slice, map or
signature types. -/
inductive Unsupported : GoType → Prop where
  | array (n : Nat) (elem : GoType) : Unsupported (.Array n elem)
  | chan (elem : GoType) : Unsupported (.Chan elem)
  | pointer {elem : GoType} : Unsupported elem → Unsupported (.Pointer elem)
  | slice {elem : GoType} : Unsupported elem → Unsupported (.Slice elem)
  | mapKey {key : GoType} (elem : GoType) : Unsupported key → Unsupported (.Map key elem)
  | mapElem (key : GoType) {elem : GoType} : Unsupported elem → Unsupported (.Map key elem)
  | param {x : GoType} {params : List GoType} (results : List GoType) (variadic : Bool) :
      x ∈ params → Unsupported x → Unsupported (.Signature params results variadic)
  | result {x : GoType} (params : List GoType) {results : List GoType} (variadic : Bool) :
      x ∈ results → Unsupported x → Unsupported (.Signature params results variadic)

/-! ## Inputs taken from the test packages of the repository -/

def pkgContext : Package := { Path := "context", Name := "context" }

def pkgCircuitgentest : Package :=
  { Path := "github.com/twitchtv/circuitgen/internal/circuitgentest", Name := "circuitgentest" }

def pkgRep : Package :=
  { Path := "github.com/twitchtv/circuitgen/internal/circuitgentest/rep", Name := "rep" }

def pkgModel : Package :=
  { Path := "github.com/twitchtv/circuitgen/internal/circuitgentest/model", Name := "model" }

/-- The package the generated wrappers of `circuittest` are written to. -/
def circuittestPath : String := "github.com/twitchtv/circuitgen/internal/circuitgentest/circuittest"

def tContext : GoType := .Named (some pkgContext) "Context"

def tError : GoType := .Named none "error"

def tInt : GoType := .Basic "int"

/-- The interface `Publisher` of `publisher.go`. -/
def tPublisher : GoType := .Named (some pkgCircuitgentest) "Publisher"

/-- `PublishWithResult(context.Context, rep.PublishInput) (*model.Result, error)`. -/
def selPublishWithResult : Selection :=
  { Name := "PublishWithResult", Exported := true,
    Typ := .Signature [tContext, .Named (some pkgRep) "PublishInput"]
      [.Pointer (.Named (some pkgModel) "Result"), tError] false }

/-- `Publish(context.Context, map[Seed][][]Grant, TopicsList, ...rep.PublishOption) error`. -/
def selPublish : Selection :=
  { Name := "Publish", Exported := true,
    Typ := .Signature
      [tContext,
       .Map (.Named (some pkgCircuitgentest) "Seed")
         (.Slice (.Slice (.Named (some pkgCircuitgentest) "Grant"))),
       .Named (some pkgCircuitgentest) "TopicsList",
       .Slice (.Named (some pkgRep) "PublishOption")]
      [tError] true }

/-- `Close() error`. -/
def selClose : Selection :=
  { Name := "Close", Exported := true, Typ := .Signature [] [tError] false }

/-- The method set of `Publisher`, in the order of the method names. -/
def publisherMethods : List Selection := [selClose, selPublish, selPublishWithResult]

/-- A type `Getter` of package `p` with the one method
`Get(context.Context, string) (*p.Result, error)`. -/
def tGetter : GoType := .Named (some { Path := "p", Name := "p" }) "Getter"

def selGet : Selection :=
  { Name := "Get", Exported := true,
    Typ := .Signature [tContext, .Basic "string"]
      [.Pointer (.Named (some { Path := "p", Name := "p" }) "Result"), tError] false }

/-- A type `Service` of package `svc` whose method `Do(context.Context, *wrap.Options) error`
mentions a type of the package `wrap`. -/
def tService : GoType := .Named (some { Path := "svc", Name := "svc" }) "Service"

def selDo : Selection :=
  { Name := "Do", Exported := true,
    Typ := .Signature
      [tContext, .Pointer (.Named (some { Path := "wrap", Name := "wrap" }) "Options")]
      [tError] false }

/-- The struct `Aggregator` of `aggregator.go`. -/
def tAggregator : GoType := .Named (some pkgCircuitgentest) "Aggregator"

/-- `IncSum(ctx context.Context, v int) error`. -/
def selIncSum : Selection :=
  { Name := "IncSum", Exported := true, Typ := .Signature [tContext, tInt] [tError] false }

/-- `Sum() int`. -/
def selSum : Selection :=
  { Name := "Sum", Exported := true, Typ := .Signature [] [tInt] false }

/-- `privateIncSum(_ context.Context, v int) error`. -/
def selPrivateIncSum : Selection :=
  { Name := "privateIncSum", Exported := false,
    Typ := .Signature [tContext, tInt] [tError] false }

/-- The intuitive method set of `Aggregator`, the methods of `*Aggregator` included. -/
def aggregatorMethods : List Selection := [selIncSum, selSum, selPrivateIncSum]

/-- A type `Watcher` of package `svc` with the one method
`Watch(context.Context) (<-chan svc.Event, error)`. -/
def tWatcher : GoType := .Named (some { Path := "svc", Name := "svc" }) "Watcher"

def selWatch : Selection :=
  { Name := "Watch", Exported := true,
    Typ := .Signature [tContext]
      [.Chan (.Named (some { Path := "svc", Name := "svc" }) "Event"), tError] false }

/-- A type `ledger` of package `svc` whose only method is unexported. -/
def tLedger : GoType := .Named (some { Path := "svc", Name := "svc" }) "ledger"

mutual
/-- A rendering in the manner of `types.TypeString`, for the shapes of the examples. -/
def exampleTypeString (qf : Package → String) : GoType → String
  | .Basic name => name
  | .Named (some pkg) name => if qf pkg = "" then name else qf pkg ++ "." ++ name
  | .Named none name => name
  | .Pointer elem => "*" ++ exampleTypeString qf elem
  | .Slice elem => "[]" ++ exampleTypeString qf elem
  | .Array len elem => "[" ++ toString len ++ "]" ++ exampleTypeString qf elem
  | .Map key elem => "map[" ++ exampleTypeString qf key ++ "]" ++ exampleTypeString qf elem
  | .Chan elem => "chan " ++ exampleTypeString qf elem
  | .Signature params results _ =>
    "func(" ++ exampleTypeStringList qf params ++ ") (" ++ exampleTypeStringList qf results ++ ")"
  | .Interface _ => "interface{...}"
  | .Struct _ => "struct{...}"
/-- The rendering of a tuple: the types joined by ", ". -/
def exampleTypeStringList (qf : Package → String) : List GoType → String
  | [] => ""
  | [t] => exampleTypeString qf t
  | t :: ts => exampleTypeString qf t ++ ", " ++ exampleTypeStringList qf ts
end

/-- The loaded program of the examples: `Publisher`, `context.Context` and `error` are
interfaces, the method sets are those of the example target types. -/
def exampleEnv : TypesEnv where
  Underlying := fun t =>
    match t with
    | .Named _ "Publisher" => .Interface [selClose.Typ, selPublish.Typ, selPublishWithResult.Typ]
    | .Named _ "Context" => .Interface []
    | .Named _ "error" => .Interface []
    | .Named _ "Aggregator" => .Struct [tError, tInt]
    | .Named _ _ => .Struct []
    | t => t
  IntuitiveMethodSet := fun t =>
    match t with
    | .Interface [_, _, _] => publisherMethods
    | .Named _ "Aggregator" => aggregatorMethods
    | .Pointer (.Named _ "Aggregator") => aggregatorMethods
    | .Named _ "Watcher" => [selWatch]
    | .Named _ "ledger" => [selPrivateIncSum]
    | _ => []
  TypeString := fun t qf => exampleTypeString qf t

/-- A circuit whose `Run` executes the closure once and returns its error. -/
def runOnceCircuit : Circuit :=
  { Run := fun f vars => f vars }

/-- The error `errors.New("sum error")` of the tests. -/
def sumErr : Option GoError := some (.other "sum error")

/-- A manager whose `CreateCircuit` returns a circuit that runs the closure once. -/
def runOnceManager : Manager Unit :=
  { CreateCircuit := fun _ _ => .ok runOnceCircuit }

/-- A method `WaitAll(ctxs ...context.Context) error`, as `parseType` records it: the
variadic parameter has the slice type `[]context.Context`. -/
def mWaitAll : Method :=
  { Name := "WaitAll",
    Params := [⟨"[]context.Context", "[]Context", false⟩],
    Results := [⟨"error", "error", true⟩],
    Variadic := true }

/-- A list node `type Node struct { Next *Node }` of package `svc`: the struct type
mentions the named type it defines. -/
def tNode : GoType := .Named (some { Path := "svc", Name := "svc" }) "Node"

/-- A type `Client` of a package `github.com/b` vendored in `github.com/a`. -/
def tVendoredClient : GoType :=
  .Named (some { Path := "github.com/a/vendor/github.com/b", Name := "b" }) "Client"

/-- A type `Client` of a package `github.com/c` vendored in `github.com/b`, itself
vendored in `github.com/a`. -/
def tNestedVendorClient : GoType :=
  .Named (some { Path := "github.com/a/vendor/github.com/b/vendor/github.com/c", Name := "c" })
    "Client"

/-! ## `IsWrappingSupported` -/

/-- `strings.HasSuffix(s, suffix)` holds exactly when `s` is some string followed by
`suffix`. -/
theorem stringsHasSuffix_iff (s suffix : String) :
    stringsHasSuffix s suffix = true ↔ ∃ pre : String, s = pre ++ suffix := by
  unfold stringsHasSuffix
  rw [List.isSuffixOf_iff_suffix]
  constructor
  · rintro ⟨t, ht⟩
    exact ⟨⟨t⟩, by apply String.ext; simpa using ht.symm⟩
  · rintro ⟨pre, rfl⟩
    exact ⟨pre.data, by simp⟩

/-- With a first parameter and a last result at hand, `IsWrappingSupported` is the
conjunction of its two tests. -/
theorem IsWrappingSupported_cons_concat (n : String) (p : TypeInfo) (ps rs : List TypeInfo)
    (r : TypeInfo) (v : Bool) :
    (Method.mk n (p :: ps) (rs ++ [r]) v).IsWrappingSupported
      = .ok (stringsHasSuffix p.Name "Context" && (r.Name == "error")) := by
  simp [Method.IsWrappingSupported]

/-- C1: `IsWrappingSupported` never panics, and it is true exactly when the method has
a first parameter whose `Name` ends with "Context" and a last result whose `Name` is
"error". It is true for `(context.Context, int) error`, false for `Sum() int` (no
parameter) and false for `(context.Context, int) int` (last result not "error"). -/
theorem IsWrappingSupported_iff (m : Method) :
    (m.IsWrappingSupported = .ok true ∨ m.IsWrappingSupported = .ok false) ∧
    (m.IsWrappingSupported = .ok true ↔
      ∃ p ps rs r, ∃ pre : String, m.Params = p :: ps ∧ m.Results = rs ++ [r] ∧
        p.Name = pre ++ "Context" ∧ r.Name = "error") ∧
    (Method.mk "IncSum" [⟨"context.Context", "Context", true⟩, ⟨"int", "int", false⟩]
      [⟨"error", "error", true⟩] false).IsWrappingSupported = .ok true ∧
    (Method.mk "Sum" [] [⟨"int", "int", false⟩] false).IsWrappingSupported = .ok false ∧
    (Method.mk "IncSum" [⟨"context.Context", "Context", true⟩, ⟨"int", "int", false⟩]
      [⟨"int", "int", false⟩] false).IsWrappingSupported = .ok false := by
  refine ⟨?_, ?_, rfl, rfl, rfl⟩
  · obtain ⟨n, params, results, v⟩ := m
    rcases params with _ | ⟨p, ps⟩
    · simp [Method.IsWrappingSupported]
    · rcases List.eq_nil_or_concat results with rfl | ⟨rs, r, rfl⟩
      · simp [Method.IsWrappingSupported]
      · rw [List.concat_eq_append, IsWrappingSupported_cons_concat]
        cases stringsHasSuffix p.Name "Context" && (r.Name == "error") <;> simp
  · obtain ⟨n, params, results, v⟩ := m
    rcases params with _ | ⟨p, ps⟩
    · simp [Method.IsWrappingSupported]
    · rcases List.eq_nil_or_concat results with rfl | ⟨rs, r, rfl⟩
      · simp [Method.IsWrappingSupported]
      · rw [List.concat_eq_append, IsWrappingSupported_cons_concat]
        constructor
        · intro h
          simp only [Except.ok.injEq, Bool.and_eq_true, beq_iff_eq] at h
          obtain ⟨pre, hpre⟩ := (stringsHasSuffix_iff _ _).1 h.1
          exact ⟨p, ps, rs, r, pre, rfl, rfl, hpre, h.2⟩
        · rintro ⟨p', ps', rs', r', pre, hp, hr, hpre, herr⟩
          simp only [List.cons.injEq] at hp
          obtain ⟨rfl, rfl⟩ := hp
          obtain ⟨rfl, hr'⟩ := List.append_inj' hr rfl
          simp only [List.cons.injEq, and_true] at hr'
          subst hr'
          simp only [Except.ok.injEq, Bool.and_eq_true, beq_iff_eq]
          exact ⟨(stringsHasSuffix_iff _ _).2 ⟨pre, hpre⟩, herr⟩

/-! ## `parseImports` -/
/-- Invariant of the loop of `uniqueStringSlice`. -/
theorem uniqueStringSlice_foldl_inv (s : List String) (st : List String × List String)
    (hkeys : ∀ x, x ∈ st.1 ↔ x ∈ st.2) (hnd : st.2.Nodup) :
    (∀ x, x ∈ (s.foldl uniqueStringSliceStep st).2 ↔ x ∈ st.2 ∨ x ∈ s) ∧
    (s.foldl uniqueStringSliceStep st).2.Nodup := by
  induction s generalizing st with
  | nil => simp [hnd]
  | cons p ps ih =>
    simp only [List.foldl_cons]
    by_cases hp : p ∈ st.1
    · have hstep : uniqueStringSliceStep st p = st := by simp [uniqueStringSliceStep, hp]
      rw [hstep]
      obtain ⟨h1, h2⟩ := ih st hkeys hnd
      refine ⟨fun x => ?_, h2⟩
      rw [h1 x, List.mem_cons]
      constructor
      · rintro (h | h)
        · exact Or.inl h
        · exact Or.inr (Or.inr h)
      · rintro (h | rfl | h)
        · exact Or.inl h
        · exact Or.inl ((hkeys _).1 hp)
        · exact Or.inr h
    · have hstep : uniqueStringSliceStep st p = (p :: st.1, st.2 ++ [p]) := by
        simp [uniqueStringSliceStep, hp]
      rw [hstep]
      have hp2 : p ∉ st.2 := fun h => hp ((hkeys _).2 h)
      obtain ⟨h1, h2⟩ := ih (p :: st.1, st.2 ++ [p])
        (by intro x; simp [hkeys x, or_comm])
        (by
          simp only
          rw [List.nodup_append]
          refine ⟨hnd, List.nodup_singleton p, ?_⟩
          intro a ha hb
          simp only [List.mem_singleton] at hb
          subst hb
          exact hp2 ha)
      refine ⟨fun x => ?_, h2⟩
      rw [h1 x]
      simp only [List.mem_append, List.mem_singleton, List.mem_cons]
      tauto

theorem mem_uniqueStringSlice (s : List String) (x : String) :
    x ∈ uniqueStringSlice s ↔ x ∈ s := by
  have h := (uniqueStringSlice_foldl_inv s ([], []) (by simp) (by simp)).1 x
  simpa [uniqueStringSlice] using h

theorem nodup_uniqueStringSlice (s : List String) : (uniqueStringSlice s).Nodup :=
  (uniqueStringSlice_foldl_inv s ([], []) (by simp) (by simp)).2

/-- The second loop of `parseImports` appends the paths that pass its test, in order. -/
theorem parseImports_foldl (inPkg : Bool) (out : String) (paths : List String)
    (imports : List Import) :
    paths.foldl
      (fun imports path =>
        if !inPkg || (inPkg && path != out) then imports ++ [{ Path := path }]
        else imports)
      imports
    = imports ++ (paths.filter (fun path => !inPkg || path != out)).map Import.mk := by
  induction paths generalizing imports with
  | nil => simp
  | cons p ps ih =>
    simp only [List.foldl_cons]
    rw [ih]
    cases inPkg <;> by_cases h : p = out <;> simp [h, List.filter_cons]

/-- What `parseImports` returns, in closed form. -/
theorem parseImports_eq (t : GoType) (mset : List Selection) (out : String) :
    parseImports t mset out =
      match parseImportsPaths mset [] with
      | .error err => .error err
      | .ok pkgPaths =>
        .ok ((if typePackagePath t = out then [] else [Import.mk (typePackagePath t)]) ++
          ((uniqueStringSlice pkgPaths).filter
            (fun path => decide (typePackagePath t ≠ out) || path != out)).map Import.mk) := by
  unfold parseImports
  cases hp : parseImportsPaths mset [] with
  | error e => rfl
  | ok pkgPaths =>
    simp only [parseImports_foldl]
    by_cases h : typePackagePath t = out
    · simp [h]
    · have hb : (typePackagePath t == out) = false := by simpa using h
      simp [h, hb]



/-- The paths gathered by the first loop of `parseImports`. -/
theorem mem_parseImportsPaths (ms : List Selection) (acc r : List String)
    (h : parseImportsPaths ms acc = .ok r) (x : String) :
    x ∈ r ↔ x ∈ acc ∨ ∃ m ∈ ms, ∃ paths, resolvePkgPaths m.Typ = .ok paths ∧ x ∈ paths := by
  induction ms generalizing acc with
  | nil =>
    simp only [parseImportsPaths, Except.ok.injEq] at h
    subst h
    simp
  | cons m ms ih =>
    simp only [parseImportsPaths] at h
    cases hm : resolvePkgPaths m.Typ with
    | error e => rw [hm] at h; cases h
    | ok paths =>
      rw [hm] at h
      rw [ih _ h]
      simp only [List.mem_append, List.mem_cons, exists_eq_or_imp, hm, Except.ok.injEq,
        exists_eq_left']
      tauto

/-- C2, refuted as stated: `Service` of package `svc` has a method that mentions
`wrap.Options`; with output package `wrap` the returned list holds `wrap` itself. -/
theorem parseImports_self_import_counterexample :
    ¬ (∀ (t : GoType) (mset : List Selection) (out : String) (imports : List Import),
        parseImports t mset out = .ok imports → ∀ i ∈ imports, i.Path ≠ out) := by
  intro h
  exact h tService [selDo] "wrap" [⟨"svc"⟩, ⟨"context"⟩, ⟨"wrap"⟩] rfl ⟨"wrap"⟩ (by simp) rfl

/-- C2, amended: when the target type is defined in the output package no returned
Import has the output path; in general an Import with the output path is returned
exactly when the target type is defined elsewhere and some method signature yields
the output path. -/
theorem parseImports_self_import (t : GoType) (mset : List Selection) (out : String)
    (imports : List Import) (h : parseImports t mset out = .ok imports) :
    (typePackagePath t = out → ∀ i ∈ imports, i.Path ≠ out) ∧
    ((∃ i ∈ imports, i.Path = out) ↔
      typePackagePath t ≠ out ∧
        ∃ m ∈ mset, ∃ paths, resolvePkgPaths m.Typ = .ok paths ∧ out ∈ paths) := by
  rw [parseImports_eq] at h
  cases hp : parseImportsPaths mset [] with
  | error e => rw [hp] at h; cases h
  | ok pkgPaths =>
    rw [hp] at h
    simp only [Except.ok.injEq] at h
    subst h
    have hmem := mem_parseImportsPaths mset [] pkgPaths hp out
    simp only [List.not_mem_nil, false_or] at hmem
    by_cases hin : typePackagePath t = out
    · simp only [hin, if_true, ne_eq, not_true_eq_false, decide_False, Bool.false_or,
        List.nil_append, List.mem_map, List.mem_filter, false_and, iff_false, not_exists,
        not_and, forall_true_left]
      have key : ∀ i : Import, (∃ a, (a ∈ uniqueStringSlice pkgPaths ∧ (a != out) = true) ∧
          Import.mk a = i) → i.Path ≠ out := by
        rintro i ⟨a, ⟨-, ha⟩, rfl⟩
        simpa using ha
      exact ⟨fun i hi => key i hi, fun i hi => key i hi⟩
    · constructor
      · intro h'; exact absurd h' hin
      · rw [← hmem]
        simp only [hin, if_false, ne_eq, not_false_eq_true, decide_True, Bool.true_or,
          List.filter_true, List.mem_append, List.mem_singleton, List.mem_map,
          true_and]
        constructor
        · rintro ⟨i, (rfl | ⟨a, ha, rfl⟩), hi⟩
          · exact absurd hi hin
          · simp only at hi
            subst hi
            exact (mem_uniqueStringSlice _ _).1 ha
        · intro hout
          exact ⟨⟨out⟩, Or.inr ⟨out, (mem_uniqueStringSlice _ _).2 hout, rfl⟩, rfl⟩

/-- `Publisher` wrapped inside its own package: the paths of `Seed`, `Grant` and
`TopicsList` are dropped. -/
theorem parseImports_self_import_witness :
    parseImports tPublisher publisherMethods pkgCircuitgentest.Path
      = .ok [⟨"context"⟩, ⟨pkgRep.Path⟩, ⟨pkgModel.Path⟩] ∧
    ((typePackagePath tPublisher = pkgCircuitgentest.Path →
      ∀ i ∈ [Import.mk "context", ⟨pkgRep.Path⟩, ⟨pkgModel.Path⟩],
        i.Path ≠ pkgCircuitgentest.Path) ∧
    ((∃ i ∈ [Import.mk "context", ⟨pkgRep.Path⟩, ⟨pkgModel.Path⟩],
        i.Path = pkgCircuitgentest.Path) ↔
      typePackagePath tPublisher ≠ pkgCircuitgentest.Path ∧
        ∃ m ∈ publisherMethods, ∃ paths, resolvePkgPaths m.Typ = .ok paths ∧
          pkgCircuitgentest.Path ∈ paths)) :=
  ⟨rfl, parseImports_self_import tPublisher publisherMethods pkgCircuitgentest.Path _ rfl⟩

/-- C3, the code at the failing inputs: for `Publisher` written to `circuittest` the
package of `Publisher` is returned twice, once for the type and once for `Seed`; for
`Getter` of package `p` with `Get(context.Context, string) (*p.Result, error)`, `p` is
returned twice. The returned list is therefore not duplicate-free in general. -/
theorem parseImports_duplicate_type_package :
    parseImports tPublisher publisherMethods circuittestPath
      = .ok [⟨pkgCircuitgentest.Path⟩, ⟨"context"⟩, ⟨pkgCircuitgentest.Path⟩,
             ⟨pkgRep.Path⟩, ⟨pkgModel.Path⟩] ∧
    parseImports tGetter [selGet] "out" = .ok [⟨"p"⟩, ⟨"context"⟩, ⟨"p"⟩] ∧
    ¬ ∀ (t : GoType) (mset : List Selection) (out : String) (imports : List Import),
        parseImports t mset out = .ok imports → (imports.map Import.Path).Nodup := by
  refine ⟨rfl, rfl, fun h => ?_⟩
  have := h tGetter [selGet] "out" [⟨"p"⟩, ⟨"context"⟩, ⟨"p"⟩] rfl
  simp at this

/-! ## Failure on unsupported shapes -/

mutual
/-- The only error `resolvePkgPaths` builds is the invalid-type error. -/
theorem resolvePkgPaths_error_invalidType (t : GoType) (e : Err)
    (h : resolvePkgPaths t = .error e) : ∃ u, e = .invalidType u := by
  cases t with
  | Basic n => simp [resolvePkgPaths] at h
  | Named pkg n => cases pkg <;> simp [resolvePkgPaths] at h
  | Pointer elem =>
    rw [resolvePkgPaths] at h
    exact resolvePkgPaths_error_invalidType elem e h
  | Slice elem =>
    rw [resolvePkgPaths] at h
    exact resolvePkgPaths_error_invalidType elem e h
  | Array n elem =>
    simp only [resolvePkgPaths, Except.error.injEq] at h
    exact ⟨_, h.symm⟩
  | Map key elem =>
    rw [resolvePkgPaths] at h
    cases hk : resolvePkgPaths key with
    | error e' =>
      rw [hk] at h
      simp only [Except.error.injEq] at h
      subst h
      exact resolvePkgPaths_error_invalidType key _ hk
    | ok kp =>
      rw [hk] at h
      dsimp only at h
      cases he : resolvePkgPaths elem with
      | error e' =>
        rw [he] at h
        simp only [Except.error.injEq] at h
        subst h
        exact resolvePkgPaths_error_invalidType elem _ he
      | ok ep => rw [he] at h; simp at h
  | Chan elem =>
    simp only [resolvePkgPaths, Except.error.injEq] at h
    exact ⟨_, h.symm⟩
  | Signature ps rs v =>
    rw [resolvePkgPaths] at h
    cases hps : resolvePkgPathsTuple ps [] with
    | error e' =>
      rw [hps] at h
      simp only [Except.error.injEq] at h
      subst h
      exact resolvePkgPathsTuple_error_invalidType ps [] _ hps
    | ok r =>
      rw [hps] at h
      dsimp only at h
      cases hrs : resolvePkgPathsTuple rs r with
      | error e' =>
        rw [hrs] at h
        simp only [Except.error.injEq] at h
        subst h
        exact resolvePkgPathsTuple_error_invalidType rs r _ hrs
      | ok r' => rw [hrs] at h; simp at h
  | Interface ms => simp [resolvePkgPaths] at h
  | Struct fs => simp [resolvePkgPaths] at h
/-- The loops of the signature case only pass on errors of `resolvePkgPaths`. -/
theorem resolvePkgPathsTuple_error_invalidType (ts : List GoType) (r : List String) (e : Err)
    (h : resolvePkgPathsTuple ts r = .error e) : ∃ u, e = .invalidType u := by
  cases ts with
  | nil => simp [resolvePkgPathsTuple] at h
  | cons t ts =>
    rw [resolvePkgPathsTuple] at h
    cases ht : resolvePkgPaths t with
    | error e' =>
      rw [ht] at h
      simp only [Except.error.injEq] at h
      subst h
      exact resolvePkgPaths_error_invalidType t _ ht
    | ok paths =>
      rw [ht] at h
      exact resolvePkgPathsTuple_error_invalidType ts _ e h
end


/-- A tuple with an element on which `resolvePkgPaths` fails makes the loop fail. -/
theorem resolvePkgPathsTuple_error_of_mem (ts : List GoType) (x : GoType) (hx : x ∈ ts)
    (e : Err) (he : resolvePkgPaths x = .error e) (r : List String) :
    ∃ u, resolvePkgPathsTuple ts r = .error (.invalidType u) := by
  induction ts generalizing r with
  | nil => cases hx
  | cons t ts ih =>
    rw [resolvePkgPathsTuple]
    cases ht : resolvePkgPaths t with
    | error e' =>
      obtain ⟨u, rfl⟩ := resolvePkgPaths_error_invalidType t e' ht
      exact ⟨u, rfl⟩
    | ok paths =>
      rcases List.mem_cons.1 hx with rfl | hx'
      · rw [ht] at he; cases he
      · exact ih hx' _

/-- The first loop of a signature only grows `r`; when it succeeds the second runs. -/
theorem resolvePkgPaths_signature_error (ps rs : List GoType) (v : Bool) (x : GoType)
    (hx : x ∈ ps ++ rs) (e : Err) (he : resolvePkgPaths x = .error e) :
    ∃ u, resolvePkgPaths (.Signature ps rs v) = .error (.invalidType u) := by
  rw [resolvePkgPaths]
  cases hps : resolvePkgPathsTuple ps [] with
  | error e' =>
    obtain ⟨u, rfl⟩ := resolvePkgPathsTuple_error_invalidType ps [] e' hps
    exact ⟨u, rfl⟩
  | ok r =>
    dsimp only
    rcases List.mem_append.1 hx with h | h
    · obtain ⟨u, hu⟩ := resolvePkgPathsTuple_error_of_mem ps x h e he []
      rw [hu] at hps; cases hps
    · obtain ⟨u, hu⟩ := resolvePkgPathsTuple_error_of_mem rs x h e he r
      rw [hu]
      exact ⟨u, rfl⟩

/-- `resolvePkgPaths` fails on every type that holds an unsupported shape. -/
theorem resolvePkgPaths_unsupported (t : GoType) (h : Unsupported t) :
    ∃ u, resolvePkgPaths t = .error (.invalidType u) := by
  induction h with
  | array n elem => exact ⟨_, by rw [resolvePkgPaths]⟩
  | chan elem => exact ⟨_, by rw [resolvePkgPaths]⟩
  | pointer _ ih => rw [resolvePkgPaths]; exact ih
  | slice _ ih => rw [resolvePkgPaths]; exact ih
  | @mapKey key elem _ ih =>
    obtain ⟨u, hu⟩ := ih
    exact ⟨u, by rw [resolvePkgPaths, hu]⟩
  | @mapElem key elem _ ih =>
    obtain ⟨u, hu⟩ := ih
    rw [resolvePkgPaths]
    cases hk : resolvePkgPaths key with
    | error e' =>
      obtain ⟨u', rfl⟩ := resolvePkgPaths_error_invalidType key e' hk
      exact ⟨u', rfl⟩
    | ok kp => exact ⟨u, by dsimp only; rw [hu]⟩
  | @param x ps rs v hx _ ih =>
    obtain ⟨u, hu⟩ := ih
    exact resolvePkgPaths_signature_error ps rs v x (List.mem_append_left _ hx) _ hu
  | @result x ps rs v hx _ ih =>
    obtain ⟨u, hu⟩ := ih
    exact resolvePkgPaths_signature_error ps rs v x (List.mem_append_right _ hx) _ hu

/-- A selection on which `resolvePkgPaths` fails makes the first loop of `parseImports`
fail. -/
theorem parseImportsPaths_error_of_mem (ms : List Selection) (m : Selection) (hm : m ∈ ms)
    (e : Err) (he : resolvePkgPaths m.Typ = .error e) (acc : List String) :
    ∃ u, parseImportsPaths ms acc = .error (.invalidType u) := by
  induction ms generalizing acc with
  | nil => cases hm
  | cons s ss ih =>
    rw [parseImportsPaths]
    cases hs : resolvePkgPaths s.Typ with
    | error e' =>
      obtain ⟨u, rfl⟩ := resolvePkgPaths_error_invalidType _ e' hs
      exact ⟨u, rfl⟩
    | ok paths =>
      rcases List.mem_cons.1 hm with rfl | hm'
      · rw [hs] at he; cases he
      · exact ih hm' _

/-- Every error of `parseImports` is the error of `resolvePkgPaths`. -/
theorem parseImports_error_invalidType (t : GoType) (mset : List Selection) (out : String)
    (e : Err) (h : parseImports t mset out = .error e) : ∃ u, e = .invalidType u := by
  rw [parseImports_eq] at h
  cases hp : parseImportsPaths mset [] with
  | ok r => rw [hp] at h; cases h
  | error e' =>
    rw [hp] at h
    simp only [Except.error.injEq] at h
    subst h
    clear t out
    generalize ([] : List String) = acc at hp
    induction mset generalizing acc with
    | nil => cases hp
    | cons s ss ih =>
      rw [parseImportsPaths] at hp
      cases hs : resolvePkgPaths s.Typ with
      | error e'' =>
        rw [hs] at hp
        simp only [Except.error.injEq] at hp
        subst hp
        exact resolvePkgPaths_error_invalidType _ _ hs
      | ok paths =>
        rw [hs] at hp
        exact ih _ hp

/-- A selection on which `resolvePkgPaths` fails makes `parseImports` fail. -/
theorem parseImports_error_of_mem (t : GoType) (mset : List Selection) (out : String)
    (m : Selection) (hm : m ∈ mset) (e : Err) (he : resolvePkgPaths m.Typ = .error e) :
    ∃ u, parseImports t mset out = .error (.invalidType u) := by
  obtain ⟨u, hu⟩ := parseImportsPaths_error_of_mem mset m hm e he []
  exact ⟨u, by rw [parseImports_eq, hu]⟩

/-- When `parseImports` fails, `parseType` returns its error with the zero value. -/
theorem parseType_of_parseImports_error (env : TypesEnv) (t : GoType) (out : String)
    (hne : methodSet env t ≠ []) (e : Err)
    (h : parseImports t (methodSet env t) out = .error e) :
    parseType env t out = .ok (TypeMetadata.zero, some e) := by
  unfold parseType
  have hlen : (methodSet env t).length ≠ 0 := by
    simpa [List.length_eq_zero] using hne
  simp only [hlen, if_false, h]

/-- C4: when a parameter or result type `x` of a method `m` of the method set holds an
unsupported shape (directly or under pointer, slice, map or signature types),
`resolvePkgPaths` fails on `x` and on the signature of `m`, `parseImports` fails, and
`parseType` returns that error together with the zero-valued `TypeMetadata`. -/
theorem unsupported_shape_fails (t : GoType) (mset : List Selection) (out : String)
    (m : Selection) (params results : List GoType) (variadic : Bool) (x : GoType)
    (hm : m ∈ mset) (hsig : m.Typ = .Signature params results variadic)
    (hx : x ∈ params ++ results) (hu : Unsupported x) :
    (∃ u, resolvePkgPaths x = .error (.invalidType u)) ∧
    (∃ u, resolvePkgPaths m.Typ = .error (.invalidType u)) ∧
    (∃ u, parseImports t mset out = .error (.invalidType u)) ∧
    (∀ env : TypesEnv, methodSet env t = mset →
      ∃ u, parseType env t out = .ok (TypeMetadata.zero, some (.invalidType u))) := by
  obtain ⟨u, hux⟩ := resolvePkgPaths_unsupported x hu
  obtain ⟨u', hum⟩ := resolvePkgPaths_signature_error params results variadic x hx _ hux
  rw [← hsig] at hum
  obtain ⟨u'', hui⟩ := parseImports_error_of_mem t mset out m hm _ hum
  refine ⟨⟨u, hux⟩, ⟨u', hum⟩, ⟨u'', hui⟩, ?_⟩
  intro env henv
  subst henv
  exact ⟨u'', parseType_of_parseImports_error env t out (List.ne_nil_of_mem hm) _ hui⟩

/-- A method returning a channel: `Watch(context.Context) (<-chan svc.Event, error)`. -/
theorem unsupported_shape_fails_witness :
    selWatch ∈ [selWatch] ∧
    selWatch.Typ = .Signature [tContext]
      [.Chan (.Named (some { Path := "svc", Name := "svc" }) "Event"), tError] false ∧
    Unsupported (.Chan (.Named (some { Path := "svc", Name := "svc" }) "Event")) ∧
    methodSet exampleEnv tWatcher = [selWatch] ∧
    ((∃ u, resolvePkgPaths (.Chan (.Named (some { Path := "svc", Name := "svc" }) "Event"))
        = .error (.invalidType u)) ∧
     (∃ u, resolvePkgPaths selWatch.Typ = .error (.invalidType u)) ∧
     (∃ u, parseImports tWatcher [selWatch] circuittestPath = .error (.invalidType u)) ∧
     (∀ env : TypesEnv, methodSet env tWatcher = [selWatch] →
       ∃ u, parseType env tWatcher circuittestPath
         = .ok (TypeMetadata.zero, some (.invalidType u)))) :=
  ⟨List.mem_singleton.2 rfl, rfl, Unsupported.chan _, rfl,
    unsupported_shape_fails tWatcher [selWatch] circuittestPath selWatch _ _ _ _
      (List.mem_singleton.2 rfl) rfl (by simp) (Unsupported.chan _)⟩

/-! ## `methodSet` and `parseType` -/

/-- A loop that appends the elements passing a test builds the filtered list. -/
theorem foldl_append_if {α : Type} (p : α → Bool) (l : List α) (init : List α) :
    l.foldl (fun acc a => if p a then acc ++ [a] else acc) init = init ++ l.filter p := by
  induction l generalizing init with
  | nil => simp
  | cons a l ih =>
    simp only [List.foldl_cons]
    rw [ih]
    cases h : p a <;> simp [List.filter_cons, h]

/-- The loop of `methodSet` is a filter on `Exported`. -/
theorem methodSet_eq_filter (env : TypesEnv) (t : GoType) :
    methodSet env t = (methodSetIntuitive env t).filter (fun m => m.Exported) := by
  unfold methodSet
  rw [foldl_append_if (fun m : Selection => m.Exported)]
  simp

/-- The loop of `parseTuple` maps `typeInfo` over the tuple, in order. -/
theorem parseTuple_eq_map (env : TypesEnv) (tuple : List GoType) (out : String) :
    parseTuple env tuple out = tuple.map (fun v => typeInfo env v out) := by
  unfold parseTuple
  have h : ∀ (l : List GoType) (init : List TypeInfo),
      l.foldl (fun vars v => vars ++ [typeInfo env v out]) init
        = init ++ l.map (fun v => typeInfo env v out) := by
    intro l
    induction l with
    | nil => simp
    | cons a l ih => intro init; simp [ih]
  simpa using h tuple []

/-- When the loop of `parseType` succeeds it has appended one `Method` per selection. -/
theorem parseTypeMethods_ok (env : TypesEnv) (out : String) (ms : List Selection)
    (acc methods : List Method) (h : parseTypeMethods env out ms acc = .ok methods) :
    ∃ new, methods = acc ++ new ∧ List.Forall₂ (IsMethodOf env out) new ms := by
  induction ms generalizing acc with
  | nil =>
    simp only [parseTypeMethods, Except.ok.injEq] at h
    exact ⟨[], by simp [h], List.Forall₂.nil⟩
  | cons m ms ih =>
    rw [parseTypeMethods] at h
    split at h
    · next params results variadic hsig =>
      obtain ⟨new, hnew, hall⟩ := ih _ h
      refine ⟨_ :: new, by simpa using hnew, List.Forall₂.cons ?_ hall⟩
      exact ⟨params, results, variadic, hsig, by simp [parseTuple_eq_map]⟩
    · cases h

/-- The loop of `parseType` fails only on a selection whose type is not a signature. -/
theorem parseTypeMethods_error (env : TypesEnv) (out : String) (ms : List Selection)
    (acc : List Method) (e : Err) (h : parseTypeMethods env out ms acc = .error e) :
    ∃ m ∈ ms, e = .notASignature m ∧ ∀ ps rs v, m.Typ ≠ .Signature ps rs v := by
  induction ms generalizing acc with
  | nil => simp [parseTypeMethods] at h
  | cons m ms ih =>
    rw [parseTypeMethods] at h
    split at h
    · obtain ⟨m', hm', he⟩ := ih _ h
      exact ⟨m', List.mem_cons_of_mem _ hm', he⟩
    · next hns =>
      simp only [Except.error.injEq] at h
      exact ⟨m, List.mem_cons_self _ _, h.symm, fun ps rs v hsig => hns ps rs v hsig⟩


/-- The outcomes of `parseType`, by the stage that decides them. -/
theorem parseType_cases (env : TypesEnv) (t : GoType) (out : String) :
    (methodSet env t = [] ∧
      parseType env t out = .ok (TypeMetadata.zero, some (.emptyMethodSet t))) ∨
    (methodSet env t ≠ [] ∧ ∃ u, parseImports t (methodSet env t) out = .error (.invalidType u) ∧
      parseType env t out = .ok (TypeMetadata.zero, some (.invalidType u))) ∨
    (methodSet env t ≠ [] ∧ ∃ imports, parseImports t (methodSet env t) out = .ok imports ∧
      ((∃ m ∈ methodSet env t, (∀ ps rs v, m.Typ ≠ .Signature ps rs v) ∧
          parseType env t out = .ok (TypeMetadata.zero, some (.notASignature m))) ∨
       (∃ methods, parseTypeMethods env out (methodSet env t) [] = .ok methods ∧
          ((∃ pkg name, t = .Named (some pkg) name ∧
              parseType env t out = .ok ({ PackageName := pkg.Name,
                                           PackagePath := stripVendor pkg.Path,
                                           TypeInfo := typeInfo env t out,
                                           Imports := imports,
                                           Methods := methods }, none)) ∨
           (∃ name, t = .Named none name ∧ parseType env t out = .error .nilDereference) ∨
           ((∀ pkg name, t ≠ .Named pkg name) ∧
              parseType env t out = .ok (TypeMetadata.zero, some .notANamedType)))))) := by
  by_cases hne : methodSet env t = []
  · left
    exact ⟨hne, by simp [parseType, hne]⟩
  · right
    have hlen : (methodSet env t).length ≠ 0 := by
      simpa [List.length_eq_zero] using hne
    cases hi : parseImports t (methodSet env t) out with
    | error e =>
      left
      obtain ⟨u, rfl⟩ := parseImports_error_invalidType t _ out e hi
      exact ⟨hne, u, rfl, parseType_of_parseImports_error env t out hne _ hi⟩
    | ok imports =>
      right
      refine ⟨hne, imports, rfl, ?_⟩
      cases hm : parseTypeMethods env out (methodSet env t) [] with
      | error e =>
        left
        obtain ⟨m, hmem, rfl, hns⟩ := parseTypeMethods_error env out _ [] e hm
        refine ⟨m, hmem, hns, ?_⟩
        unfold parseType
        simp only [hlen, if_false, hi, hm]
      | ok methods =>
        right
        refine ⟨methods, rfl, ?_⟩
        cases t with
        | Named pkg name =>
          cases pkg with
          | some pkg =>
            left
            refine ⟨pkg, name, rfl, ?_⟩
            unfold parseType
            simp only [hlen, if_false, hi, hm]
          | none =>
            right; left
            refine ⟨name, rfl, ?_⟩
            unfold parseType
            simp only [hlen, if_false, hi, hm]
        | _ =>
          right; right
          refine ⟨fun pkg name h => (by cases h), ?_⟩
          unfold parseType
          simp only [hlen, if_false, hi, hm]

/-- C5: when no selection of the intuitive method set is exported (the set is empty or
holds only unexported methods), the exported method set is empty and `parseType`
returns the empty-method-set error with the zero-valued `TypeMetadata`. -/
theorem parseType_no_exported_method (env : TypesEnv) (t : GoType) (out : String)
    (h : ∀ s ∈ methodSetIntuitive env t, s.Exported = false) :
    methodSet env t = [] ∧
    parseType env t out = .ok (TypeMetadata.zero, some (.emptyMethodSet t)) := by
  have hempty : methodSet env t = [] := by
    rw [methodSet_eq_filter, List.filter_eq_nil_iff]
    intro s hs
    simp [h s hs]
  exact ⟨hempty, by simp [parseType, hempty]⟩

/-- The type `ledger`, whose only method is `privateIncSum`. -/
theorem parseType_no_exported_method_witness :
    (∀ s ∈ methodSetIntuitive exampleEnv tLedger, s.Exported = false) ∧
    methodSet exampleEnv tLedger = [] ∧
    parseType exampleEnv tLedger circuittestPath
      = .ok (TypeMetadata.zero, some (.emptyMethodSet tLedger)) :=
  have h : ∀ s ∈ methodSetIntuitive exampleEnv tLedger, s.Exported = false :=
    fun s hs => by
      have hs' : s ∈ [selPrivateIncSum] := hs
      rw [List.mem_singleton.1 hs']
      rfl
  ⟨h, parseType_no_exported_method exampleEnv tLedger circuittestPath h⟩

/-- Every selection a `Method` was built from has a signature type. -/
theorem signature_of_isMethodOf (env : TypesEnv) (out : String) (methods : List Method)
    (ms : List Selection) (hall : List.Forall₂ (IsMethodOf env out) methods ms) :
    ∀ s ∈ ms, ∃ ps rs v, s.Typ = .Signature ps rs v := by
  induction hall with
  | nil => intro s hs; cases hs
  | cons hab _ ih =>
    intro s hs
    rcases List.mem_cons.1 hs with rfl | hs'
    · obtain ⟨ps, rs, v, hsig, -⟩ := hab
      exact ⟨ps, rs, v, hsig⟩
    · exact ih s hs'

/-- C6, refuted as stated: the slice type `[]int` is not a named type and has no
method, and `parseType` fails on it with the empty-method-set error, which it tests
first. -/
theorem parseType_not_named_counterexample :
    ¬ (∀ (env : TypesEnv) (t : GoType) (out : String), (∀ pkg name, t ≠ .Named pkg name) →
        ∃ tm, parseType env t out = .ok (tm, some .notANamedType)) := by
  intro h
  obtain ⟨tm, htm⟩ := h exampleEnv (.Slice tInt) circuittestPath (fun pkg name h => by cases h)
  have hrun : parseType exampleEnv (.Slice tInt) circuittestPath
      = .ok (TypeMetadata.zero, some (.emptyMethodSet (.Slice tInt))) := rfl
  rw [hrun] at htm
  simp only [Except.ok.injEq, Prod.mk.injEq, Option.some.injEq] at htm
  exact Err.noConfusion htm.2

/-- On a type that is not a named type `parseType` fails with the zero-valued
`TypeMetadata`, and with "not a named type" exactly when the earlier stages pass. -/
theorem parseType_not_named_error (env : TypesEnv) (t : GoType) (out : String)
    (hn : ∀ pkg name, t ≠ .Named pkg name) :
    ∃ e, parseType env t out = .ok (TypeMetadata.zero, some e) ∧
      (e = .notANamedType ↔
        methodSet env t ≠ [] ∧
        (∃ imports, parseImports t (methodSet env t) out = .ok imports) ∧
        ∀ s ∈ methodSet env t, ∃ ps rs v, s.Typ = .Signature ps rs v) := by
  rcases parseType_cases env t out with ⟨he, hp⟩ | ⟨hne, u, hi, hp⟩ | ⟨hne, imports, hi, hrest⟩
  · exact ⟨_, hp, by simp [he]⟩
  · refine ⟨_, hp, ?_⟩
    constructor
    · intro h; cases h
    · rintro ⟨-, ⟨imports, himp⟩, -⟩
      rw [hi] at himp; cases himp
  · rcases hrest with ⟨m, hm, hns, hp⟩ | ⟨methods, hmeth, hlast⟩
    · refine ⟨_, hp, ?_⟩
      constructor
      · intro h; cases h
      · rintro ⟨-, -, hall⟩
        obtain ⟨ps, rs, v, hsig⟩ := hall m hm
        exact absurd hsig (hns ps rs v)
    · rcases hlast with ⟨pkg, name, rfl, -⟩ | ⟨name, rfl, -⟩ | ⟨-, hp⟩
      · exact absurd rfl (hn _ _)
      · exact absurd rfl (hn _ _)
      · refine ⟨_, hp, ?_⟩
        simp only [true_iff]
        refine ⟨hne, ⟨imports, hi⟩, ?_⟩
        obtain ⟨new, -, hall⟩ := parseTypeMethods_ok env out _ [] methods hmeth
        exact signature_of_isMethodOf env out new _ hall

/-- The loop of `parseType` returns the error of the first selection whose type is not
a signature. -/
theorem parseTypeMethods_first_error (env : TypesEnv) (out : String)
    (pre : List Selection) (m : Selection) (post : List Selection) (acc : List Method)
    (hpre : ∀ s ∈ pre, ∃ ps rs v, s.Typ = .Signature ps rs v)
    (hm : ∀ ps rs v, m.Typ ≠ .Signature ps rs v) :
    parseTypeMethods env out (pre ++ m :: post) acc = .error (.notASignature m) := by
  induction pre generalizing acc with
  | nil =>
    rw [List.nil_append, parseTypeMethods]
    split
    · next ps rs v hsig => exact absurd hsig (hm ps rs v)
    · rfl
  | cons s pre ih =>
    obtain ⟨ps, rs, v, hsig⟩ := hpre s (List.mem_cons_self _ _)
    rw [List.cons_append, parseTypeMethods]
    split
    · exact ih _ (fun x hx => hpre x (List.mem_cons_of_mem _ hx))
    · next hns => exact absurd hsig (hns ps rs v)

/-- With an empty method set `parseImports` has nothing to fail on. -/
theorem parseImports_nil_ne_error (t : GoType) (out : String) (err : Err) :
    parseImports t [] out ≠ .error err := by
  rw [parseImports_eq]
  simp [parseImportsPaths]

/-- C6, amended: on a type that is not a named type `parseType` always fails, with the
zero-valued `TypeMetadata`, and the error is that of the first stage that fails: the
empty-method-set error when there is no exported method; else the error of
`parseImports` when it fails; else the not-a-signature error of the first selection
whose type is not a signature; and "not a named type" exactly when these stages pass,
that is when the exported method set is non-empty, `parseImports` succeeds and every
selection has a signature type. -/
theorem parseType_not_named (env : TypesEnv) (t : GoType) (out : String)
    (hn : ∀ pkg name, t ≠ .Named pkg name) :
    ∃ e, parseType env t out = .ok (TypeMetadata.zero, some e) ∧
      (e = .notANamedType ↔
        methodSet env t ≠ [] ∧
        (∃ imports, parseImports t (methodSet env t) out = .ok imports) ∧
        ∀ s ∈ methodSet env t, ∃ ps rs v, s.Typ = .Signature ps rs v) ∧
      (methodSet env t = [] → e = .emptyMethodSet t) ∧
      (∀ err, parseImports t (methodSet env t) out = .error err → e = err) ∧
      (∀ pre m post, methodSet env t = pre ++ m :: post →
        (∃ imports, parseImports t (methodSet env t) out = .ok imports) →
        (∀ s ∈ pre, ∃ ps rs v, s.Typ = .Signature ps rs v) →
        (∀ ps rs v, m.Typ ≠ .Signature ps rs v) →
        e = .notASignature m) := by
  obtain ⟨e, hp, hiff⟩ := parseType_not_named_error env t out hn
  have hinj : ∀ e', parseType env t out = .ok (TypeMetadata.zero, some e') → e = e' := by
    intro e' h'
    rw [hp] at h'
    simp only [Except.ok.injEq, Prod.mk.injEq, true_and, Option.some.injEq] at h'
    exact h'
  refine ⟨e, hp, hiff, ?_, ?_, ?_⟩
  · intro hempty
    exact hinj _ (by simp [parseType, hempty])
  · intro err herr
    have hne : methodSet env t ≠ [] := by
      intro hempty
      rw [hempty] at herr
      exact parseImports_nil_ne_error t out err herr
    exact hinj _ (parseType_of_parseImports_error env t out hne err herr)
  · intro pre m post hms ⟨imports, hi⟩ hpre hm
    apply hinj
    have hlen : (methodSet env t).length ≠ 0 := by rw [hms]; simp
    have hfirst := parseTypeMethods_first_error env out pre m post [] hpre hm
    rw [← hms] at hfirst
    unfold parseType
    simp only [hlen, if_false, hi, hfirst]

/-- The pointer type `*Aggregator`, which has the methods of `Aggregator`, fails with
"not a named type"; the slice type `[]int`, which has no method, fails with the
empty-method-set error. -/
theorem parseType_not_named_witness :
    (∀ pkg name, GoType.Pointer tAggregator ≠ .Named pkg name) ∧
    (∃ e, parseType exampleEnv (.Pointer tAggregator) circuittestPath
        = .ok (TypeMetadata.zero, some e) ∧
      (e = .notANamedType ↔
        methodSet exampleEnv (.Pointer tAggregator) ≠ [] ∧
        (∃ imports, parseImports (.Pointer tAggregator)
          (methodSet exampleEnv (.Pointer tAggregator)) circuittestPath = .ok imports) ∧
        ∀ s ∈ methodSet exampleEnv (.Pointer tAggregator),
          ∃ ps rs v, s.Typ = .Signature ps rs v)) ∧
    (∀ pkg name, GoType.Slice tInt ≠ .Named pkg name) ∧
    (∃ e, parseType exampleEnv (.Slice tInt) circuittestPath
        = .ok (TypeMetadata.zero, some e) ∧
      e = .emptyMethodSet (.Slice tInt)) :=
  ⟨fun pkg name h => (by cases h),
    (parseType_not_named exampleEnv (.Pointer tAggregator) circuittestPath
      (fun pkg name h => (by cases h))).imp (fun _ h => ⟨h.1, h.2.1⟩),
    fun pkg name h => (by cases h),
    (parseType_not_named exampleEnv (.Slice tInt) circuittestPath
      (fun pkg name h => (by cases h))).imp (fun _ h => ⟨h.1, h.2.2.1 rfl⟩)⟩

/-- The methods carry the names of their selections, in order. -/
theorem names_of_isMethodOf (env : TypesEnv) (out : String) (methods : List Method)
    (ms : List Selection) (hall : List.Forall₂ (IsMethodOf env out) methods ms) :
    methods.map Method.Name = ms.map Selection.Name := by
  induction hall with
  | nil => rfl
  | cons hab _ ih =>
    obtain ⟨ps, rs, v, -, rfl⟩ := hab
    simp only [List.map_cons, ih]

/-- C7: when `parseType` succeeds, `Methods` pairs off with the exported method set in
order: each `Method` has its selection's name, `typeInfo` of the signature's parameters
and of its results in declaration order, and the signature's variadic flag. So the two
lists have the same length and the same names in the same order, `Methods` is not
empty, and every selection behind it is exported. -/
theorem parseType_methods (env : TypesEnv) (t : GoType) (out : String) (tm : TypeMetadata)
    (h : parseType env t out = .ok (tm, none)) :
    List.Forall₂ (IsMethodOf env out) tm.Methods (methodSet env t) ∧
    tm.Methods.length = (methodSet env t).length ∧
    tm.Methods.map Method.Name = (methodSet env t).map Selection.Name ∧
    tm.Methods ≠ [] ∧
    (∀ s ∈ methodSet env t, s.Exported = true) := by
  have hexp : ∀ s ∈ methodSet env t, s.Exported = true := by
    intro s hs
    rw [methodSet_eq_filter] at hs
    exact (List.mem_filter.1 hs).2
  rcases parseType_cases env t out with ⟨-, hp⟩ | ⟨-, u, -, hp⟩ | ⟨hne, imports, hi, hrest⟩
  · rw [hp] at h; simp at h
  · rw [hp] at h; simp at h
  · rcases hrest with ⟨m, -, -, hp⟩ | ⟨methods, hmeth, hlast⟩
    · rw [hp] at h; simp at h
    · rcases hlast with ⟨pkg, name, rfl, hp⟩ | ⟨name, rfl, hp⟩ | ⟨-, hp⟩
      · rw [hp] at h
        simp only [Except.ok.injEq, Prod.mk.injEq, and_true] at h
        subst h
        obtain ⟨new, hnew, hall⟩ := parseTypeMethods_ok env out _ [] methods hmeth
        simp only [List.nil_append] at hnew
        subst hnew
        have hlen := hall.length_eq
        refine ⟨hall, hlen, ?_, ?_, hexp⟩
        · exact names_of_isMethodOf env out _ _ hall
        · intro hnil
          simp only at hnil
          rw [hnil] at hlen
          exact hne (List.length_eq_zero.1 hlen.symm)
      · rw [hp] at h; cases h
      · rw [hp] at h; simp at h

/-- `Aggregator` written to `circuittest`: `IncSum` and `Sum`, in this order. -/
theorem parseType_methods_witness :
    parseType exampleEnv tAggregator circuittestPath
      = .ok ({ PackageName := "circuitgentest",
               PackagePath := "github.com/twitchtv/circuitgen/internal/circuitgentest",
               TypeInfo := ⟨"circuitgentest.Aggregator", "Aggregator", false⟩,
               Imports := [⟨"github.com/twitchtv/circuitgen/internal/circuitgentest"⟩,
                           ⟨"context"⟩],
               Methods := [⟨"IncSum",
                             [⟨"context.Context", "Context", true⟩, ⟨"int", "int", false⟩],
                             [⟨"error", "error", true⟩], false⟩,
                           ⟨"Sum", [], [⟨"int", "int", false⟩], false⟩] }, none) ∧
    List.Forall₂ (IsMethodOf exampleEnv circuittestPath)
      [⟨"IncSum", [⟨"context.Context", "Context", true⟩, ⟨"int", "int", false⟩],
         [⟨"error", "error", true⟩], false⟩,
       ⟨"Sum", [], [⟨"int", "int", false⟩], false⟩]
      (methodSet exampleEnv tAggregator) :=
  ⟨rfl, (parseType_methods exampleEnv tAggregator circuittestPath _ rfl).1⟩

/-- C8: `methodSet` is the intuitive method set filtered on `Exported`: a sub-list in
the same order, every member exported, no exported selection dropped. For `Aggregator`
`IncSum` and `Sum` stay and `privateIncSum` goes. -/
theorem methodSet_exported_sublist (env : TypesEnv) (t : GoType) :
    methodSet env t = (methodSetIntuitive env t).filter (fun m => m.Exported) ∧
    (methodSet env t).Sublist (methodSetIntuitive env t) ∧
    (∀ s ∈ methodSet env t, s.Exported = true) ∧
    (∀ s ∈ methodSetIntuitive env t, s.Exported = true → s ∈ methodSet env t) ∧
    methodSetIntuitive exampleEnv tAggregator = [selIncSum, selSum, selPrivateIncSum] ∧
    methodSet exampleEnv tAggregator = [selIncSum, selSum] := by
  refine ⟨methodSet_eq_filter env t, ?_, ?_, ?_, rfl, rfl⟩
  · rw [methodSet_eq_filter]
    exact List.filter_sublist _
  · intro s hs
    rw [methodSet_eq_filter] at hs
    exact (List.mem_filter.1 hs).2
  · intro s hs hexp
    rw [methodSet_eq_filter]
    exact List.mem_filter.2 ⟨hs, hexp⟩

/-- The three methods of `Publisher` are all kept. -/
theorem methodSet_exported_sublist_witness :
    methodSet exampleEnv tPublisher = [selClose, selPublish, selPublishWithResult] ∧
    (methodSet exampleEnv tPublisher).Sublist (methodSetIntuitive exampleEnv tPublisher) :=
  ⟨rfl, (methodSet_exported_sublist exampleEnv tPublisher).2.1⟩

/-! ## `ParamsSignature` -/

/-- The name of parameter `i`: the override when there is one, `p<i>` otherwise. -/
theorem paramName_eq (overrides : List String) (i : Nat) :
    (if h : i < overrides.length then overrides[i] else "p" ++ toString i)
      = (overrides[i]?).getD ("p" ++ toString i) := by
  by_cases h : i < overrides.length
  · simp [h, List.getElem?_eq_getElem h]
  · simp [h, List.getElem?_eq_none (Nat.le_of_not_lt h)]

/-- A step of the loop that is not the variadic last one. -/
theorem ParamsSignatureStep_plain (m : Method) (overrides : List String) (s : String)
    (i : Nat) (t : TypeInfo) (ht : m.Params[i]? = some t)
    (hlast : (i == m.Params.length - 1 && m.Variadic) = false) :
    m.ParamsSignatureStep overrides s i
      = .ok (s ++ ((overrides[i]?).getD ("p" ++ toString i) ++ " " ++ t.Name)
          ++ (if i < m.Params.length - 1 then ", " else "")) := by
  unfold Method.ParamsSignatureStep
  simp only [ht, hlast, paramName_eq]
  by_cases h : i < m.Params.length - 1 <;> simp [h]

/-- Cutting `sliceChars` off a name that starts with it neither panics nor loses a byte. -/
theorem sliceFrom_sliceChars (E : String) :
    sliceFrom ("[]" ++ E) sliceChars.utf8ByteSize = .ok E := by
  have h2 : sliceChars.utf8ByteSize = 2 := rfl
  have hsz : ("[]" ++ E).utf8ByteSize = 2 + E.utf8ByteSize := by
    have : ("[]" ++ E) = ⟨['[', ']'] ++ E.data⟩ := rfl
    rw [this, String.utf8ByteSize_mk, String.utf8Len_append]
    rfl
  unfold sliceFrom
  rw [h2, if_pos (by rw [hsz]; omega)]
  have hext := String.extract_of_valid ['[', ']'] E.data []
  simp only [List.append_nil] at hext
  have hend : ("[]" ++ E).endPos = ⟨String.utf8Len ['[', ']'] + String.utf8Len E.data⟩ := by
    show (⟨("[]" ++ E).utf8ByteSize⟩ : String.Pos) = _
    rw [hsz]; rfl
  rw [hend]
  exact congrArg Except.ok hext

/-- The variadic last step. -/
theorem ParamsSignatureStep_variadic (m : Method) (overrides : List String) (s : String)
    (i : Nat) (t : TypeInfo) (E : String) (ht : m.Params[i]? = some t)
    (hlast : (i == m.Params.length - 1 && m.Variadic) = true) (hE : t.Name = "[]" ++ E) :
    m.ParamsSignatureStep overrides s i
      = .ok (s ++ ((overrides[i]?).getD ("p" ++ toString i) ++ " ..." ++ E)) := by
  unfold Method.ParamsSignatureStep
  simp only [ht, hlast, paramName_eq, hE, sliceFrom_sliceChars, if_true]


/-- Joining after appending one string. -/
theorem join_concat (l : List String) (a : String) : String.join (l ++ [a]) = String.join l ++ a := by
  simp [String.join, List.foldl_append]

/-- The accumulator loop of `String.intercalate` after appending one string. -/
theorem intercalate_go_concat (acc sep : String) (l : List String) (x : String) :
    String.intercalate.go acc sep (l ++ [x]) = String.intercalate.go acc sep l ++ sep ++ x := by
  induction l generalizing acc with
  | nil => simp [String.intercalate.go]
  | cons a l ih => simp [String.intercalate.go, ih]

/-- Appending one string to a non-empty list adds the separator and the string. -/
theorem intercalate_append_singleton (sep : String) (l : List String) (x : String)
    (hl : l ≠ []) :
    String.intercalate sep (l ++ [x]) = String.intercalate sep l ++ sep ++ x := by
  cases l with
  | nil => exact absurd rfl hl
  | cons a l =>
    simp only [List.cons_append, String.intercalate]
    exact intercalate_go_concat a sep l x

/-- Joining with a separator: every element but the last is followed by it. -/
theorem intercalate_concat (sep : String) (l : List String) (x : String) :
    String.intercalate sep (l ++ [x]) = String.join (l.map (· ++ sep)) ++ x := by
  induction l using List.reverseRecOn generalizing x with
  | nil => simp [String.intercalate, String.intercalate.go, String.join]
  | append_singleton l y ih =>
    rw [intercalate_append_singleton sep (l ++ [y]) x (by simp), ih y,
      List.map_append, List.map_singleton, join_concat]
    simp [String.append_assoc]

/-- The loop over the parameters before the last one. -/
theorem ParamsSignature_prefix (m : Method) (overrides : List String) (k : Nat)
    (hk : k ≤ m.Params.length - 1) :
    (List.range k).foldlM (m.ParamsSignatureStep overrides) ""
      = .ok (String.join ((List.range k).map (fun i => paramText m overrides i ++ ", "))) := by
  induction k with
  | zero => rfl
  | succ k ih =>
    have hk' : k < m.Params.length - 1 := hk
    have hlt : k < m.Params.length := by omega
    rw [List.range_succ, List.foldlM_append, ih (by omega)]
    simp only [List.map_append, List.map_singleton, join_concat]
    have hstep := ParamsSignatureStep_plain m overrides
      (String.join ((List.range k).map (fun i => paramText m overrides i ++ ", "))) k
      m.Params[k] (List.getElem?_eq_getElem hlt)
      (by
        have : (k == m.Params.length - 1) = false := by
          simp only [beq_eq_false_iff_ne, ne_eq]; omega
        simp [this])
    simp only [hk', if_true] at hstep
    have hpt : paramText m overrides k
        = (overrides[k]?).getD ("p" ++ toString k) ++ " " ++ m.Params[k].Name := by
      simp [paramText, List.getElem?_eq_getElem hlt]
    show (m.ParamsSignatureStep overrides _ k >>= fun s => pure s) = _
    rw [hstep, hpt]
    show Except.ok _ = Except.ok _
    rw [String.append_assoc]


/-- The texts of the parameters, by position. -/
theorem enum_map_eq_range_map (m : Method) (overrides : List String) :
    m.Params.enum.map
        (fun it => (overrides[it.1]?).getD ("p" ++ toString it.1) ++ " " ++ it.2.Name)
      = (List.range m.Params.length).map (paramText m overrides) := by
  apply List.ext_getElem?
  intro i
  by_cases hi : i < m.Params.length
  · simp [paramText, List.getElem?_eq_getElem hi, hi, List.getElem?_range hi]
  · have h1 : (List.range m.Params.length)[i]? = none :=
      List.getElem?_eq_none (by simpa using Nat.le_of_not_lt hi)
    simp [List.getElem?_eq_none (Nat.le_of_not_lt hi), hi, h1]

/-- C9: for a non-variadic method and any overrides, `ParamsSignature` returns (without
panic) the texts `name_i ++ " " ++ Params[i].Name` joined by ", ", where `name_i` is
`overrides[i]` when there is one and "p" followed by the decimal of `i` otherwise. For a
method without parameters this is the empty string. -/
theorem ParamsSignature_nonvariadic (m : Method) (overrides : List String)
    (hv : m.Variadic = false) :
    m.ParamsSignature overrides
      = .ok (String.intercalate ", " (m.Params.enum.map
          (fun it => (overrides[it.1]?).getD ("p" ++ toString it.1) ++ " " ++ it.2.Name))) := by
  rw [enum_map_eq_range_map]
  unfold Method.ParamsSignature
  cases hl : m.Params.length with
  | zero => rfl
  | succ n =>
    have hlt : n < m.Params.length := by omega
    rw [List.range_succ, List.foldlM_append, ParamsSignature_prefix m overrides n (by omega)]
    have hstep := ParamsSignatureStep_plain m overrides
      (String.join ((List.range n).map (fun i => paramText m overrides i ++ ", "))) n
      m.Params[n] (List.getElem?_eq_getElem hlt) (by simp [hv])
    have hnot : ¬ n < m.Params.length - 1 := by omega
    simp only [hnot, if_false] at hstep
    have hpt : paramText m overrides n
        = (overrides[n]?).getD ("p" ++ toString n) ++ " " ++ m.Params[n].Name := by
      simp [paramText, List.getElem?_eq_getElem hlt]
    show (m.ParamsSignatureStep overrides _ n >>= fun s => pure s) = _
    rw [hstep, ← hpt, List.map_append, List.map_singleton, intercalate_concat, List.map_map]
    show Except.ok _ = Except.ok _
    simp only [String.append_empty]
    rfl


/-- `IncSum(ctx context.Context, p1 int)`, and the empty text of `Sum()`. -/
theorem ParamsSignature_nonvariadic_witness :
    (Method.mk "Sum" [] [⟨"int", "int", false⟩] false).ParamsSignature [] = .ok "" ∧
    (Method.mk "IncSum" [⟨"context.Context", "Context", true⟩, ⟨"int", "int", false⟩]
        [⟨"error", "error", true⟩] false).Variadic = false ∧
    (Method.mk "IncSum" [⟨"context.Context", "Context", true⟩, ⟨"int", "int", false⟩]
        [⟨"error", "error", true⟩] false).ParamsSignature ["ctx"]
      = .ok "ctx context.Context, p1 int" :=
  ⟨rfl, rfl, ParamsSignature_nonvariadic
    (Method.mk "IncSum" [⟨"context.Context", "Context", true⟩, ⟨"int", "int", false⟩]
      [⟨"error", "error", true⟩] false) ["ctx"] rfl⟩

/-- The texts of the parameters before the last one, by position. -/
theorem enum_map_init_eq_range_map (m : Method) (overrides : List String)
    (init : List TypeInfo) (last : TypeInfo) (hp : m.Params = init ++ [last]) :
    init.enum.map
        (fun it => (overrides[it.1]?).getD ("p" ++ toString it.1) ++ " " ++ it.2.Name ++ ", ")
      = (List.range init.length).map (fun i => paramText m overrides i ++ ", ") := by
  apply List.ext_getElem?
  intro i
  by_cases hi : i < init.length
  · have h1 : m.Params[i]? = some init[i] := by
      rw [hp, List.getElem?_append_left hi, List.getElem?_eq_getElem hi]
    simp [paramText, h1, List.getElem?_eq_getElem hi, hi, List.getElem?_range hi]
  · have h1 : (List.range init.length)[i]? = none :=
      List.getElem?_eq_none (by simpa using Nat.le_of_not_lt hi)
    simp [List.getElem?_eq_none (Nat.le_of_not_lt hi), hi, h1]

/-- C10: for a variadic method whose parameters are `init ++ [last]` with
`last.Name = "[]" ++ E`, `ParamsSignature` returns without panic: each parameter of
`init` as `name_i ++ " " ++ Name ++ ", "`, then the last one as `name ++ " ..." ++ E`.
With a single parameter and no override the text is `"p0 ..." ++ E`. -/
theorem ParamsSignature_variadic (m : Method) (overrides : List String)
    (init : List TypeInfo) (last : TypeInfo) (E : String)
    (hv : m.Variadic = true) (hp : m.Params = init ++ [last]) (hE : last.Name = "[]" ++ E) :
    m.ParamsSignature overrides
      = .ok (String.join (init.enum.map
            (fun it => (overrides[it.1]?).getD ("p" ++ toString it.1) ++ " " ++ it.2.Name ++ ", "))
          ++ ((overrides[init.length]?).getD ("p" ++ toString init.length) ++ " ..." ++ E)) ∧
    (init = [] → overrides = [] → m.ParamsSignature overrides = .ok ("p0 ..." ++ E)) := by
  have hlen : m.Params.length = init.length + 1 := by rw [hp]; simp
  have hlast : m.Params[init.length]? = some last := by
    rw [hp]; simp
  have hmain : m.ParamsSignature overrides
      = .ok (String.join (init.enum.map
            (fun it => (overrides[it.1]?).getD ("p" ++ toString it.1) ++ " " ++ it.2.Name ++ ", "))
          ++ ((overrides[init.length]?).getD ("p" ++ toString init.length) ++ " ..." ++ E)) := by
    rw [enum_map_init_eq_range_map m overrides init last hp]
    unfold Method.ParamsSignature
    rw [hlen, List.range_succ, List.foldlM_append,
      ParamsSignature_prefix m overrides init.length (by omega)]
    have hstep := ParamsSignatureStep_variadic m overrides
      (String.join ((List.range init.length).map (fun i => paramText m overrides i ++ ", ")))
      init.length last E hlast (by simp [hlen, hv]) hE
    show (m.ParamsSignatureStep overrides _ init.length >>= fun s => pure s) = _
    rw [hstep]
    rfl
  refine ⟨hmain, ?_⟩
  intro hi ho
  rw [hmain, hi, ho]
  rfl

/-- The method `Publish` of `Publisher`, as the generator renders it. -/
theorem ParamsSignature_variadic_witness :
    (Method.mk "Publish"
        [⟨"context.Context", "Context", true⟩,
         ⟨"map[circuitgentest.Seed][][]circuitgentest.Grant", "map[Seed][][]Grant", false⟩,
         ⟨"circuitgentest.TopicsList", "TopicsList", false⟩,
         ⟨"[]rep.PublishOption", "[]PublishOption", false⟩]
        [⟨"error", "error", true⟩] true).Variadic = true ∧
    (TypeInfo.mk "[]rep.PublishOption" "[]PublishOption" false).Name
      = "[]" ++ "rep.PublishOption" ∧
    (Method.mk "Publish"
        [⟨"context.Context", "Context", true⟩,
         ⟨"map[circuitgentest.Seed][][]circuitgentest.Grant", "map[Seed][][]Grant", false⟩,
         ⟨"circuitgentest.TopicsList", "TopicsList", false⟩,
         ⟨"[]rep.PublishOption", "[]PublishOption", false⟩]
        [⟨"error", "error", true⟩] true).ParamsSignature ["ctx"]
      = .ok ("ctx context.Context, p1 map[circuitgentest.Seed][][]circuitgentest.Grant, "
          ++ "p2 circuitgentest.TopicsList, p3 ...rep.PublishOption") :=
  ⟨rfl, rfl, (ParamsSignature_variadic
    (Method.mk "Publish"
        [⟨"context.Context", "Context", true⟩,
         ⟨"map[circuitgentest.Seed][][]circuitgentest.Grant", "map[Seed][][]Grant", false⟩,
         ⟨"circuitgentest.TopicsList", "TopicsList", false⟩,
         ⟨"[]rep.PublishOption", "[]PublishOption", false⟩]
        [⟨"error", "error", true⟩] true) ["ctx"]
    [⟨"context.Context", "Context", true⟩,
     ⟨"map[circuitgentest.Seed][][]circuitgentest.Grant", "map[Seed][][]Grant", false⟩,
     ⟨"circuitgentest.TopicsList", "TopicsList", false⟩]
    ⟨"[]rep.PublishOption", "[]PublishOption", false⟩ "rep.PublishOption" rfl rfl rfl).1⟩

/-! ## `CallSignatureWithClosure` -/

/-- Concatenating from a non-empty start. -/
theorem foldl_append_start (l : List String) (a : String) :
    l.foldl (· ++ ·) a = a ++ l.foldl (· ++ ·) "" := by
  induction l generalizing a with
  | nil => simp
  | cons b l ih =>
    simp only [List.foldl_cons]
    rw [ih (a ++ b), ih ("" ++ b)]
    simp [String.append_assoc]

/-- Joining a list with a head. -/
theorem join_cons (a : String) (l : List String) :
    String.join (a :: l) = a ++ String.join l := by
  simp only [String.join, List.foldl_cons]
  rw [foldl_append_start]
  simp

/-- A loop that appends one text per element builds the join of the texts. -/
theorem foldl_append_eq_join {α : Type} (step : String → α → String) (f : α → String)
    (xs : List α) (s0 : String) (h : ∀ s, ∀ x ∈ xs, step s x = s ++ f x) :
    xs.foldl step s0 = s0 ++ String.join (xs.map f) := by
  induction xs generalizing s0 with
  | nil => simp [String.join]
  | cons x xs ih =>
    rw [List.foldl_cons, h s0 x (List.mem_cons_self _ _),
      ih _ (fun s y hy => h s y (List.mem_cons_of_mem _ hy)), List.map_cons, join_cons,
      String.append_assoc]

/-- The same for a loop whose steps may panic but do not. -/
theorem foldlM_append_eq_join {α : Type} (step : String → α → Except Panic String)
    (f : α → String) (xs : List α) (s0 : String)
    (h : ∀ s, ∀ x ∈ xs, step s x = .ok (s ++ f x)) :
    xs.foldlM step s0 = .ok (s0 ++ String.join (xs.map f)) := by
  induction xs generalizing s0 with
  | nil => simp [String.join]; rfl
  | cons x xs ih =>
    rw [List.foldlM_cons, h s0 x (List.mem_cons_self _ _)]
    show xs.foldlM step (s0 ++ f x) = _
    rw [ih _ (fun s y hy => h s y (List.mem_cons_of_mem _ hy)), List.map_cons, join_cons,
      String.append_assoc]

/-- Joining with a separator, from the head. -/
theorem intercalate_go_eq (acc sep : String) (l : List String) :
    String.intercalate.go acc sep l = acc ++ String.join (l.map (sep ++ ·)) := by
  induction l generalizing acc with
  | nil => simp [String.intercalate.go, String.join]
  | cons a l ih =>
    simp only [String.intercalate.go, ih, List.map_cons, join_cons]
    simp [String.append_assoc]

/-- Joining with a separator: every element after the first is preceded by it. -/
theorem intercalate_cons (sep a : String) (l : List String) :
    String.intercalate sep (a :: l) = a ++ String.join (l.map (sep ++ ·)) := by
  simp [String.intercalate, intercalate_go_eq]


/-- A step of the loop of `CallSignatureWithClosure` before the last parameter. -/
theorem CallSignatureWithClosureStep_inner (m : Method) (s : String) (i : Nat)
    (hi : i < m.Params.length - 1) :
    m.CallSignatureWithClosureStep s i = s ++ (callArg i ++ ", ") := by
  have h1 : (i == m.Params.length - 1) = false := by
    simp only [beq_eq_false_iff_ne, ne_eq]; omega
  unfold Method.CallSignatureWithClosureStep callArg
  by_cases h0 : i = 0
  · subst h0; simp [h1, hi, String.append_assoc]
  · have h0' : (i == 0) = false := by simpa using h0
    simp [h1, hi, h0, h0', String.append_assoc]

/-- The loop of `CallSignatureWithClosure` over the parameters before the last one. -/
theorem CallSignatureWithClosure_prefix (m : Method) (n : Nat) (hn : n ≤ m.Params.length - 1) :
    (List.range n).foldl m.CallSignatureWithClosureStep ""
      = String.join ((List.range n).map (fun i => callArg i ++ ", ")) := by
  rw [foldl_append_eq_join m.CallSignatureWithClosureStep (fun i => callArg i ++ ", ")]
  · simp
  · intro s i hi
    exact CallSignatureWithClosureStep_inner m s i (by have := List.mem_range.1 hi; omega)

/-- For a non-variadic method the arguments are `ctx, p1, p2, ...`. -/
theorem CallSignatureWithClosure_nonvariadic (m : Method) (hv : m.Variadic = false) :
    m.CallSignatureWithClosure
      = String.intercalate ", " ((List.range m.Params.length).map callArg) := by
  unfold Method.CallSignatureWithClosure
  cases hl : m.Params.length with
  | zero => rfl
  | succ n =>
    rw [List.range_succ, List.foldl_append,
      CallSignatureWithClosure_prefix m n (by omega), List.map_append, List.map_singleton,
      intercalate_concat, List.map_map]
    simp only [List.foldl_cons, List.foldl_nil]
    have h1 : ¬ n < m.Params.length - 1 := by omega
    unfold Method.CallSignatureWithClosureStep callArg
    by_cases h0 : n = 0
    · subst h0; simp [hv, h1]
    · have h0' : (n == 0) = false := by simpa using h0
      simp [hv, h1, h0, h0']
      rfl

/-- For a variadic method the last argument is `p<n>...`, whatever its position. -/
theorem CallSignatureWithClosure_variadic (m : Method) (n : Nat) (hv : m.Variadic = true)
    (hl : m.Params.length = n + 1) :
    m.CallSignatureWithClosure
      = String.intercalate ", "
          ((List.range n).map callArg ++ ["p" ++ toString n ++ "..."]) := by
  unfold Method.CallSignatureWithClosure
  rw [hl, List.range_succ, List.foldl_append,
    CallSignatureWithClosure_prefix m n (by omega), intercalate_concat, List.map_map]
  simp only [List.foldl_cons, List.foldl_nil]
  unfold Method.CallSignatureWithClosureStep
  simp [hv, hl]
  rfl


/-- The positions after the first hold `p1, p2, ...`. -/
theorem map_callArg_range_succ (n : Nat) :
    (List.range (n + 1)).map callArg
      = "ctx" :: (List.range n).map (fun j => "p" ++ toString (j + 1)) := by
  rw [List.range_succ_eq_map, List.map_cons, List.map_map]
  rfl

/-- C11, refuted as stated: for the method `Log(...string)`, variadic with a single
parameter, the text is `p0...`, which is not a list of arguments that starts with
`ctx`. -/
theorem CallSignatureWithClosure_first_argument_counterexample :
    ¬ ∀ m : Method, m.Params ≠ [] →
        ∃ rest, m.CallSignatureWithClosure = String.intercalate ", " ("ctx" :: rest) := by
  intro h
  obtain ⟨rest, hrest⟩ :=
    h ⟨"Log", [⟨"[]string", "[]string", false⟩], [], true⟩ (by simp)
  have hrun : (Method.mk "Log" [⟨"[]string", "[]string", false⟩] [] true).CallSignatureWithClosure
      = "p0..." := rfl
  rw [hrun, intercalate_cons] at hrest
  have hd := congrArg String.data hrest
  simp at hd

/-- C11, amended: for a method with `n + 1` parameters the first argument is `ctx`
when the method is not variadic, and when it is variadic with at least two
parameters (the last argument is then `p<n>...`). -/
theorem CallSignatureWithClosure_first_argument (m : Method) (n : Nat)
    (hl : m.Params.length = n + 1) :
    (m.Variadic = false →
      m.CallSignatureWithClosure = String.intercalate ", "
        ("ctx" :: (List.range n).map (fun j => "p" ++ toString (j + 1)))) ∧
    (m.Variadic = true → ∀ k, n = k + 1 →
      m.CallSignatureWithClosure = String.intercalate ", "
        ("ctx" :: ((List.range k).map (fun j => "p" ++ toString (j + 1))
          ++ ["p" ++ toString (k + 1) ++ "..."]))) := by
  refine ⟨fun hv => ?_, fun hv k hk => ?_⟩
  · rw [CallSignatureWithClosure_nonvariadic m hv, hl, map_callArg_range_succ]
  · subst hk
    rw [CallSignatureWithClosure_variadic m (k + 1) hv hl, map_callArg_range_succ]
    rfl

/-- The method `IncSum(ctx context.Context, v int) error`. -/
theorem CallSignatureWithClosure_first_argument_witness :
    (Method.mk "IncSum" [⟨"context.Context", "Context", true⟩, ⟨"int", "int", false⟩]
        [⟨"error", "error", true⟩] false).Params.length = 1 + 1 ∧
    (Method.mk "IncSum" [⟨"context.Context", "Context", true⟩, ⟨"int", "int", false⟩]
        [⟨"error", "error", true⟩] false).CallSignatureWithClosure = "ctx, p1" :=
  ⟨rfl, (CallSignatureWithClosure_first_argument
    (Method.mk "IncSum" [⟨"context.Context", "Context", true⟩, ⟨"int", "int", false⟩]
      [⟨"error", "error", true⟩] false) 1 rfl).1 rfl⟩

/-! ## The result fragments -/

/-- The names of `xs ++ [x]`, each before the last followed by the separator, join to
the names joined by the separator. -/
theorem join_range_pieces (xs : List TypeInfo) (x : TypeInfo) (sep : String) :
    String.join ((List.range (xs.length + 1)).map
        (fun i => (((xs ++ [x])[i]?).map TypeInfo.Name).getD ""
          ++ (if i == xs.length then "" else sep)))
      = String.intercalate sep ((xs ++ [x]).map TypeInfo.Name) := by
  rw [List.range_succ, List.map_append, List.map_singleton, join_concat, List.map_append,
    List.map_singleton, intercalate_concat]
  have hmap : (List.range xs.length).map
        (fun i => (((xs ++ [x])[i]?).map TypeInfo.Name).getD ""
          ++ (if i == xs.length then "" else sep))
      = (xs.map TypeInfo.Name).map (· ++ sep) := by
    apply List.ext_getElem?
    intro i
    by_cases hi : i < xs.length
    · have h1 : (xs ++ [x])[i]? = some xs[i] := by
        rw [List.getElem?_append_left hi, List.getElem?_eq_getElem hi]
      have h2 : i ≠ xs.length := by omega
      simp [h1, h2, List.getElem?_eq_getElem hi, hi, List.getElem?_range hi]
    · have h1 : (List.range xs.length)[i]? = none :=
        List.getElem?_eq_none (by simpa using Nat.le_of_not_lt hi)
      simp [List.getElem?_eq_none (Nat.le_of_not_lt hi), hi, h1]
  rw [hmap]
  simp

/-- C12: `ResultsSignature` is the `Name` of the result when there is exactly one, and
with two or more results it is "(", the names joined by ", ", and ")"; neither case
panics. -/
theorem ResultsSignature_spec (m : Method) :
    (∀ r, m.Results = [r] → m.ResultsSignature = .ok r.Name) ∧
    (2 ≤ m.Results.length →
      m.ResultsSignature
        = .ok ("(" ++ String.intercalate ", " (m.Results.map TypeInfo.Name) ++ ")")) ∧
    (Method.mk "BatchGetItem" []
      [⟨"*dynamodb.BatchGetItemOutput", "*BatchGetItemOutput", false⟩,
       ⟨"error", "error", true⟩] false).ResultsSignature
      = .ok "(*dynamodb.BatchGetItemOutput, error)" := by
  refine ⟨?_, ?_, rfl⟩
  · intro r hr
    simp [Method.ResultsSignature, hr]
  · intro h2
    have hne : (m.Results.length == 1) = false := by
      simp only [beq_eq_false_iff_ne, ne_eq]; omega
    obtain ⟨xs, x, hil⟩ : ∃ xs x, m.Results = xs ++ [x] := by
      rcases List.eq_nil_or_concat m.Results with h | ⟨xs, x, h⟩
      · rw [h] at h2; simp at h2
      · exact ⟨xs, x, by simpa using h⟩
    have hlen : m.Results.length = xs.length + 1 := by rw [hil]; simp
    have hfold : (List.range m.Results.length).foldlM m.ResultsSignatureStep "("
        = .ok ("(" ++ String.join ((List.range m.Results.length).map
            (fun i => ((m.Results[i]?).map TypeInfo.Name).getD ""
              ++ (if i == xs.length then "" else ", ")))) := by
      apply foldlM_append_eq_join
      intro s i hi
      have hlt : i < m.Results.length := List.mem_range.1 hi
      by_cases hlast : i = xs.length
      · subst hlast
        simp [Method.ResultsSignatureStep, List.getElem?_eq_getElem hlt, hlen]
      · have h1 : (i == m.Results.length - 1) = false := by
          simp only [beq_eq_false_iff_ne, ne_eq]; omega
        have h2 : (i == xs.length) = false := by
          simp only [beq_eq_false_iff_ne, ne_eq]; omega
        simp [Method.ResultsSignatureStep, List.getElem?_eq_getElem hlt, h1, h2]
    unfold Method.ResultsSignature
    simp only [hne, hfold]
    rw [hil]
    simp only [List.length_append, List.length_singleton]
    rw [join_range_pieces]
    rfl

/-- The method `PublishWithResult` of `Publisher`. -/
theorem ResultsSignature_spec_witness :
    2 ≤ (Method.mk "PublishWithResult"
        [⟨"context.Context", "Context", true⟩, ⟨"rep.PublishInput", "PublishInput", false⟩]
        [⟨"*model.Result", "*Result", false⟩, ⟨"error", "error", true⟩] false).Results.length ∧
    (Method.mk "PublishWithResult"
        [⟨"context.Context", "Context", true⟩, ⟨"rep.PublishInput", "PublishInput", false⟩]
        [⟨"*model.Result", "*Result", false⟩, ⟨"error", "error", true⟩] false).ResultsSignature
      = .ok "(*model.Result, error)" :=
  ⟨by decide, (ResultsSignature_spec
    (Method.mk "PublishWithResult"
      [⟨"context.Context", "Context", true⟩, ⟨"rep.PublishInput", "PublishInput", false⟩]
      [⟨"*model.Result", "*Result", false⟩, ⟨"error", "error", true⟩] false)).2.1
    (by decide)⟩

/-- Cutting the last element off a non-empty slice does not panic. -/
theorem sliceTo_concat {α : Type} (xs : List α) (x : α) :
    sliceTo (xs ++ [x]) (((xs ++ [x]).length : Int) - 1) = .ok xs := by
  have h : (((xs ++ [x]).length : Int) - 1) = (xs.length : Int) := by
    simp
  rw [h]
  unfold sliceTo
  simp

/-- A non-empty string joined with anything is not empty. -/
theorem join_cons_ne_empty (a : String) (l : List String) (ha : a ≠ "") :
    String.join (a :: l) ≠ "" := by
  rw [join_cons]
  intro h
  have hlen := congrArg String.length h
  simp only [String.length_append] at hlen
  have : a.length = 0 := by
    have h0 : ("" : String).length = 0 := rfl
    omega
  apply ha
  apply String.ext
  exact List.length_eq_zero.1 this

/-- C13: for results `init ++ [last]`, `ResultsClosureVariableDeclarations` returns
without panic the lines `var r<i> <Name>` followed by a newline, one per result of
`init` in order and none for `last`; the text is empty exactly when there is one
result. -/
theorem ResultsClosureVariableDeclarations_spec (m : Method) (init : List TypeInfo)
    (last : TypeInfo) (h : m.Results = init ++ [last]) :
    m.ResultsClosureVariableDeclarations
      = .ok (String.join (init.enum.map
          (fun it => "var r" ++ toString it.1 ++ " " ++ it.2.Name ++ "\n"))) ∧
    (m.ResultsClosureVariableDeclarations = .ok "" ↔ m.Results.length = 1) := by
  have hmain : m.ResultsClosureVariableDeclarations
      = .ok (String.join (init.enum.map
          (fun it => "var r" ++ toString it.1 ++ " " ++ it.2.Name ++ "\n"))) := by
    unfold Method.ResultsClosureVariableDeclarations
    rw [h, sliceTo_concat]
    simp only
    rw [foldl_append_eq_join _
      (fun it : Nat × TypeInfo => "var r" ++ toString it.1 ++ " " ++ it.2.Name ++ "\n")
      _ _ (fun s x _ => rfl)]
    simp
  refine ⟨hmain, ?_⟩
  rw [hmain, h]
  cases init with
  | nil => simp [String.join]
  | cons t ts =>
    simp only [List.enum_cons, List.map_cons, List.cons_append, List.length_cons,
      List.length_append, List.length_singleton, Except.ok.injEq]
    constructor
    · intro hj
      exact absurd hj (join_cons_ne_empty _ _ (by
        intro he
        have hlen := congrArg String.length he
        simp only [String.length_append] at hlen
        have h5 : ("var r" : String).length = 5 := rfl
        have h0 : ("" : String).length = 0 := rfl
        omega))
    · intro hl; omega

/-- The method `PublishWithResult` declares `r0`; a method whose sole result is
`error` declares nothing. -/
theorem ResultsClosureVariableDeclarations_spec_witness :
    (Method.mk "PublishWithResult" []
        [⟨"*model.Result", "*Result", false⟩, ⟨"error", "error", true⟩]
        false).ResultsClosureVariableDeclarations
      = .ok "var r0 *model.Result\n" ∧
    (Method.mk "IncSum" [] [⟨"error", "error", true⟩] false).ResultsClosureVariableDeclarations
      = .ok "" :=
  ⟨(ResultsClosureVariableDeclarations_spec
      (Method.mk "PublishWithResult" []
        [⟨"*model.Result", "*Result", false⟩, ⟨"error", "error", true⟩] false)
      [⟨"*model.Result", "*Result", false⟩] ⟨"error", "error", true⟩ rfl).1,
   (ResultsClosureVariableDeclarations_spec
      (Method.mk "IncSum" [] [⟨"error", "error", true⟩] false)
      [] ⟨"error", "error", true⟩ rfl).1⟩

/-- C14: for results `init ++ [last]`, `ResultsCircuitVariableAssignments` returns
without panic the names `r0`, ..., one per result of `init`, followed by `err`, all
joined by ", ". -/
theorem ResultsCircuitVariableAssignments_spec (m : Method) (init : List TypeInfo)
    (last : TypeInfo) (h : m.Results = init ++ [last]) :
    m.ResultsCircuitVariableAssignments
      = .ok (String.intercalate ", "
          ((List.range init.length).map (fun i => "r" ++ toString i) ++ ["err"])) := by
  unfold Method.ResultsCircuitVariableAssignments
  rw [h, sliceTo_concat]
  simp only
  rw [foldl_append_eq_join _ (fun i : Nat => "r" ++ toString i ++ ", ") _ _ (fun s x _ => rfl),
    intercalate_concat, List.map_map]
  simp
  rfl

/-- Two results give `r0, err`, one result gives `err`. -/
theorem ResultsCircuitVariableAssignments_spec_witness :
    (Method.mk "PublishWithResult" []
        [⟨"*model.Result", "*Result", false⟩, ⟨"error", "error", true⟩]
        false).ResultsCircuitVariableAssignments = .ok "r0, err" ∧
    (Method.mk "IncSum" [] [⟨"error", "error", true⟩] false).ResultsCircuitVariableAssignments
      = .ok "err" :=
  ⟨ResultsCircuitVariableAssignments_spec
      (Method.mk "PublishWithResult" []
        [⟨"*model.Result", "*Result", false⟩, ⟨"error", "error", true⟩] false)
      [⟨"*model.Result", "*Result", false⟩] ⟨"error", "error", true⟩ rfl,
   ResultsCircuitVariableAssignments_spec
      (Method.mk "IncSum" [] [⟨"error", "error", true⟩] false)
      [] ⟨"error", "error", true⟩ rfl⟩

/-- C15: for a method with at least one result both functions return without panic,
and `ResultsCircuitVariableAssignments` is the text of
`ResultsClosureVariableReturns`, which is `r<i>, ` for each result but the last,
followed by `err`. -/
theorem ResultsCircuitVariableAssignments_eq_returns (m : Method) (h : m.Results ≠ []) :
    ∃ s, m.ResultsClosureVariableReturns = .ok s ∧
      m.ResultsCircuitVariableAssignments = .ok (s ++ "err") ∧
      s = String.join ((List.range (m.Results.length - 1)).map
            (fun i => "r" ++ toString i ++ ", ")) := by
  obtain ⟨init, last, hil⟩ : ∃ init last, m.Results = init ++ [last] := by
    rcases List.eq_nil_or_concat m.Results with h' | ⟨init, last, h'⟩
    · exact absurd h' h
    · exact ⟨init, last, by simpa using h'⟩
  refine ⟨_, ?_, ?_, rfl⟩
  · unfold Method.ResultsClosureVariableReturns
    rw [hil, sliceTo_concat]
    simp only
    rw [foldl_append_eq_join _ (fun i : Nat => "r" ++ toString i ++ ", ") _ _
      (fun s x _ => rfl)]
    simp
  · unfold Method.ResultsCircuitVariableAssignments
    rw [hil, sliceTo_concat]
    simp only
    rw [foldl_append_eq_join _ (fun i : Nat => "r" ++ toString i ++ ", ") _ _
      (fun s x _ => rfl)]
    simp

/-- For `PublishWithResult` the returns are `r0, ` and the assignments `r0, err`. -/
theorem ResultsCircuitVariableAssignments_eq_returns_witness :
    (Method.mk "PublishWithResult" []
        [⟨"*model.Result", "*Result", false⟩, ⟨"error", "error", true⟩] false).Results ≠ [] ∧
    ∃ s, (Method.mk "PublishWithResult" []
          [⟨"*model.Result", "*Result", false⟩, ⟨"error", "error", true⟩]
          false).ResultsClosureVariableReturns = .ok s ∧
      (Method.mk "PublishWithResult" []
          [⟨"*model.Result", "*Result", false⟩, ⟨"error", "error", true⟩]
          false).ResultsCircuitVariableAssignments = .ok (s ++ "err") ∧
      s = String.join ((List.range
            ((Method.mk "PublishWithResult" []
              [⟨"*model.Result", "*Result", false⟩, ⟨"error", "error", true⟩]
              false).Results.length - 1)).map (fun i => "r" ++ toString i ++ ", ")) :=
  ⟨by simp, ResultsCircuitVariableAssignments_eq_returns
    (Method.mk "PublishWithResult" []
      [⟨"*model.Result", "*Result", false⟩, ⟨"error", "error", true⟩] false) (by simp)⟩

/-! ## The traversal rule and the order of the imports -/

/-- The loop over a tuple appends the traversals of its types, in order, and stops at
the first error. -/
theorem resolvePkgPathsTuple_eq_mapM (ts : List GoType) (r : List String) :
    resolvePkgPathsTuple ts r
      = (do let l ← ts.mapM resolvePkgPaths; pure (r ++ l.flatten)) := by
  induction ts generalizing r with
  | nil =>
    rw [resolvePkgPathsTuple, List.mapM_nil]
    simp [pure, Except.pure, bind, Except.bind]
  | cons t ts ih =>
    rw [resolvePkgPathsTuple, List.mapM_cons]
    cases ht : resolvePkgPaths t with
    | error e => rfl
    | ok paths =>
      simp only [ih]
      cases hts : ts.mapM resolvePkgPaths with
      | error e => simp [hts, bind, Except.bind]
      | ok l => simp [hts, bind, Except.bind, pure, Except.pure]

/-- C17, refuted as stated: `int` is traversed with no path, and the array `[4]int`
is not. -/
theorem resolvePkgPaths_array_counterexample :
    ¬ ∀ (n : Nat) (elem : GoType) (paths : List String),
        resolvePkgPaths elem = .ok paths → resolvePkgPaths (.Array n elem) = .ok paths := by
  intro h
  have h4 := h 4 tInt [] rfl
  rw [resolvePkgPaths] at h4
  cases h4

/-- C17, amended: for a slice `resolvePkgPaths` is `resolvePkgPaths` of the element, so
it succeeds exactly when the element does; for an array it returns the invalid-type
error whatever the element, the type switch having no `*types.Array` case. -/
theorem resolvePkgPaths_sequence :
    (∀ elem, resolvePkgPaths (.Slice elem) = resolvePkgPaths elem) ∧
    (∀ elem, (∃ paths, resolvePkgPaths (.Slice elem) = .ok paths)
      ↔ ∃ paths, resolvePkgPaths elem = .ok paths) ∧
    (∀ n elem, resolvePkgPaths (.Array n elem) = .error (.invalidType (.Array n elem))) := by
  refine ⟨fun _ => by rw [resolvePkgPaths], fun _ => by rw [resolvePkgPaths],
    fun _ _ => by rw [resolvePkgPaths]⟩

/-- The type `[][]circuitgentest.Grant` of `Publish`, and the array `[4]int`. -/
theorem resolvePkgPaths_sequence_witness :
    resolvePkgPaths (.Slice (.Slice (.Named (some pkgCircuitgentest) "Grant")))
      = .ok [pkgCircuitgentest.Path] ∧
    resolvePkgPaths (.Array 4 tInt) = .error (.invalidType (.Array 4 tInt)) :=
  ⟨((resolvePkgPaths_sequence.1 _).trans (resolvePkgPaths_sequence.1 _)).trans rfl,
    resolvePkgPaths_sequence.2.2 4 tInt⟩

/-- C18, refuted as stated: for `Aggregator` written to `circuittest` the entry of the
type's own package is first, not appended after `context`. -/
theorem parseImports_type_package_counterexample :
    ¬ ∀ (t : GoType) (mset : List Selection) (out : String) (imports : List Import)
        (pkgPaths : List String),
        parseImports t mset out = .ok imports → parseImportsPaths mset [] = .ok pkgPaths →
        typePackagePath t ≠ out →
        imports = (uniqueStringSlice pkgPaths).map Import.mk ++ [⟨typePackagePath t⟩] := by
  intro h
  have h' := h tAggregator [selIncSum, selSum] circuittestPath
    [⟨pkgCircuitgentest.Path⟩, ⟨"context"⟩] ["context"] rfl rfl (by decide)
  have h0 := congrArg (fun l => l.head?.map Import.Path) h'
  have hl : (List.map Import.mk (uniqueStringSlice ["context"])
      ++ [Import.mk (typePackagePath tAggregator)]).head?.map Import.Path = some "context" := rfl
  simp only [hl] at h0
  simp [pkgCircuitgentest] at h0

/-- C18, amended: when `parseImports` succeeds and the type's package differs from the
output path, the list is the entry of the type's own package followed by the
deduplicated method-derived paths; when the type is defined in the output package
the list is the deduplicated paths other than the output path, with no entry for the
type's package. -/
theorem parseImports_type_package (t : GoType) (mset : List Selection) (out : String)
    (imports : List Import) (h : parseImports t mset out = .ok imports) :
    ∃ pkgPaths, parseImportsPaths mset [] = .ok pkgPaths ∧
      (typePackagePath t ≠ out →
        imports = ⟨typePackagePath t⟩ :: (uniqueStringSlice pkgPaths).map Import.mk) ∧
      (typePackagePath t = out →
        imports = ((uniqueStringSlice pkgPaths).filter (fun path => path != out)).map
          Import.mk ∧
        ∀ i ∈ imports, i.Path ≠ typePackagePath t) := by
  rw [parseImports_eq] at h
  cases hp : parseImportsPaths mset [] with
  | error e => rw [hp] at h; cases h
  | ok pkgPaths =>
    rw [hp] at h
    simp only [Except.ok.injEq] at h
    subst h
    refine ⟨pkgPaths, rfl, ?_, ?_⟩
    · intro hne
      simp [hne]
    · intro heq
      refine ⟨by simp [heq], ?_⟩
      intro i hi
      simp only [heq, if_true, ne_eq, not_true_eq_false, decide_False, Bool.false_or,
        List.nil_append, List.mem_map, List.mem_filter] at hi
      obtain ⟨a, ⟨-, ha⟩, rfl⟩ := hi
      rw [heq]
      simpa using ha

/-- `Aggregator` written to `circuittest`: its own package first, then `context`. -/
theorem parseImports_type_package_witness :
    parseImports tAggregator [selIncSum, selSum] circuittestPath
      = .ok [⟨pkgCircuitgentest.Path⟩, ⟨"context"⟩] ∧
    ∃ pkgPaths, parseImportsPaths [selIncSum, selSum] [] = .ok pkgPaths ∧
      (typePackagePath tAggregator ≠ circuittestPath →
        [Import.mk pkgCircuitgentest.Path, ⟨"context"⟩]
          = ⟨typePackagePath tAggregator⟩ :: (uniqueStringSlice pkgPaths).map Import.mk) ∧
      (typePackagePath tAggregator = circuittestPath →
        [Import.mk pkgCircuitgentest.Path, ⟨"context"⟩]
          = ((uniqueStringSlice pkgPaths).filter (fun path => path != circuittestPath)).map
              Import.mk ∧
        ∀ i ∈ [Import.mk pkgCircuitgentest.Path, ⟨"context"⟩],
          i.Path ≠ typePackagePath tAggregator) :=
  ⟨rfl, parseImports_type_package tAggregator [selIncSum, selSum] circuittestPath _ rfl⟩

/-! ## The generated wrapper of `Aggregator` -/

/-- A `*circuit.SimpleBadRequest` is never its own `Err`. -/
theorem simpleBadRequest_ne_self (e : Option GoError) :
    some (GoError.SimpleBadRequest e) ≠ e := by
  intro h
  have hs := congrArg sizeOf h
  simp at hs
  omega

/-- What the closure reports to the circuit and what it leaves in `skippedErr`. -/
theorem IncSumClosure_eq (w : CircuitWrapperAggregator) (p1 : Int) (vars : ClosureVars) :
    w.IncSumClosure p1 vars =
      (if w.ShouldSkipError vars.Aggregator.IncSumError then none
        else if w.IsBadRequest vars.Aggregator.IncSumError then
          some (.SimpleBadRequest vars.Aggregator.IncSumError)
        else vars.Aggregator.IncSumError,
       { skippedErr :=
           if w.ShouldSkipError vars.Aggregator.IncSumError then vars.Aggregator.IncSumError
           else vars.skippedErr,
         Aggregator := (vars.Aggregator.IncSum p1).1 }) := by
  unfold CircuitWrapperAggregator.IncSumClosure Aggregator.IncSum
  simp only
  cases w.ShouldSkipError vars.Aggregator.IncSumError <;>
    cases w.IsBadRequest vars.Aggregator.IncSumError <;> simp

/-- What the wrapper's `IncSum` does once `Run` has executed the closure: it looks at
the error of the embedded `IncSum` when that error is skipped or passed through, and
at the error wrapped as a bad request otherwise. -/
theorem IncSum_eq (w : CircuitWrapperAggregator) (p1 : Int)
    (hrun : ∀ f vars, w.CircuitIncSum.Run f vars = f vars) :
    w.IncSum p1 =
      (match (if w.ShouldSkipError w.Aggregator.IncSumError = false ∧
                  w.IsBadRequest w.Aggregator.IncSumError = true
              then some (GoError.SimpleBadRequest w.Aggregator.IncSumError)
              else w.Aggregator.IncSumError) with
        | some (.SimpleBadRequest berr) =>
          .ok (berr, { w with Aggregator := (w.Aggregator.IncSum p1).1 })
        | some .nilSimpleBadRequest => .error .nilDereference
        | some (.other t) =>
          .ok (some (.other t), { w with Aggregator := (w.Aggregator.IncSum p1).1 })
        | none => .ok (none, { w with Aggregator := (w.Aggregator.IncSum p1).1 })) := by
  unfold CircuitWrapperAggregator.IncSum
  simp only [hrun, IncSumClosure_eq]
  cases hs : w.ShouldSkipError w.Aggregator.IncSumError
  · cases hb : w.IsBadRequest w.Aggregator.IncSumError
    · rcases he : w.Aggregator.IncSumError with _ | ⟨t⟩ | ⟨berr⟩ | _ <;> simp
    · simp
  · rcases he : w.Aggregator.IncSumError with _ | ⟨t⟩ | ⟨berr⟩ | _ <;> simp

/-- C19, refuted as stated: when the embedded `IncSum` returns a
`*circuit.SimpleBadRequest` whose `Err` is the error "sum error", and both predicates
are false, the wrapper returns "sum error", not the error it received. -/
theorem IncSum_returns_counterexample :
    ¬ ∀ (w : CircuitWrapperAggregator) (p1 : Int),
        (∀ f vars, w.CircuitIncSum.Run f vars = f vars) →
        ∃ w', w.IncSum p1 = .ok (w.Aggregator.IncSumError, w') := by
  intro h
  obtain ⟨w', h'⟩ :=
    h { Aggregator := { IncSumError := some (.SimpleBadRequest sumErr), sum := 0 },
        ShouldSkipError := fun _ => false, IsBadRequest := fun _ => false,
        CircuitIncSum := runOnceCircuit } 10 (fun _ _ => rfl)
  have hrun : CircuitWrapperAggregator.IncSum
      { Aggregator := { IncSumError := some (.SimpleBadRequest sumErr), sum := 0 },
        ShouldSkipError := fun _ => false, IsBadRequest := fun _ => false,
        CircuitIncSum := runOnceCircuit } 10
      = .ok (sumErr,
          { Aggregator := { IncSumError := some (.SimpleBadRequest sumErr), sum := 10 },
            ShouldSkipError := fun _ => false, IsBadRequest := fun _ => false,
            CircuitIncSum := runOnceCircuit }) := rfl
  rw [hrun] at h'
  simp only [Except.ok.injEq, Prod.mk.injEq] at h'
  exact simpleBadRequest_ne_self _ h'.1.symm

/-- C19, amended: when `Run` executes the closure once and returns its error, the
wrapper's `IncSum` returns the error `e` of the embedded `IncSum` (nil included), for
every choice of the predicates, provided `e` is not a `*circuit.SimpleBadRequest`. When
`e` is one and `ShouldSkipError(e)` is false and `IsBadRequest(e)` is true, the wrapper
returns `e` as well. Otherwise the final type assertion matches `e` itself: the wrapper
returns `e.Err` when `e` points to a struct, and panics on the nil dereference when `e`
is a nil `*circuit.SimpleBadRequest`. In every returning case the embedded aggregator
is left as the embedded `IncSum` left it. -/
theorem IncSum_returns (w : CircuitWrapperAggregator) (p1 : Int)
    (hrun : ∀ f vars, w.CircuitIncSum.Run f vars = f vars) :
    ((∀ berr, w.Aggregator.IncSumError ≠ some (.SimpleBadRequest berr)) →
      w.Aggregator.IncSumError ≠ some .nilSimpleBadRequest →
      w.IncSum p1 = .ok (w.Aggregator.IncSumError,
        { w with Aggregator := (w.Aggregator.IncSum p1).1 })) ∧
    (∀ berr, w.Aggregator.IncSumError = some (.SimpleBadRequest berr) →
      w.IncSum p1 =
        .ok (if w.ShouldSkipError w.Aggregator.IncSumError = false ∧
                w.IsBadRequest w.Aggregator.IncSumError = true
             then w.Aggregator.IncSumError else berr,
          { w with Aggregator := (w.Aggregator.IncSum p1).1 })) ∧
    (w.Aggregator.IncSumError = some .nilSimpleBadRequest →
      w.IncSum p1 =
        if w.ShouldSkipError w.Aggregator.IncSumError = false ∧
            w.IsBadRequest w.Aggregator.IncSumError = true
        then .ok (w.Aggregator.IncSumError,
          { w with Aggregator := (w.Aggregator.IncSum p1).1 })
        else .error .nilDereference) := by
  have hval := IncSum_eq w p1 hrun
  refine ⟨?_, ?_, ?_⟩
  · intro hne hnil
    rw [hval]
    by_cases hc : w.ShouldSkipError w.Aggregator.IncSumError = false ∧
        w.IsBadRequest w.Aggregator.IncSumError = true
    · simp only [hc, and_self, if_true]
    · simp only [hc, if_false]
      rcases he : w.Aggregator.IncSumError with _ | ⟨t⟩ | ⟨berr⟩ | _
      · rfl
      · rfl
      · exact absurd he (hne berr)
      · exact absurd he hnil
  · intro berr he
    rw [hval]
    by_cases hc : w.ShouldSkipError w.Aggregator.IncSumError = false ∧
        w.IsBadRequest w.Aggregator.IncSumError = true
    · simp only [hc, and_self, if_true]
    · simp only [hc, if_false]
      rw [he]
  · intro he
    rw [hval]
    by_cases hc : w.ShouldSkipError w.Aggregator.IncSumError = false ∧
        w.IsBadRequest w.Aggregator.IncSumError = true
    · simp only [hc, and_self, if_true]
    · simp only [hc, if_false]
      rw [he]

/-- The second call of `TestAggregatorStruct`, with predicates that are both true;
and an embedded error that is a nil `*circuit.SimpleBadRequest`, with predicates that
are both false. -/
theorem IncSum_returns_witness :
    (∀ f vars, runOnceCircuit.Run f vars = f vars) ∧
    CircuitWrapperAggregator.IncSum
      { Aggregator := { IncSumError := sumErr, sum := 10 },
        ShouldSkipError := fun _ => true, IsBadRequest := fun _ => true,
        CircuitIncSum := runOnceCircuit } 10
      = .ok (sumErr,
          { Aggregator := { IncSumError := sumErr, sum := 20 },
            ShouldSkipError := fun _ => true, IsBadRequest := fun _ => true,
            CircuitIncSum := runOnceCircuit }) ∧
    CircuitWrapperAggregator.IncSum
      { Aggregator := { IncSumError := some .nilSimpleBadRequest, sum := 10 },
        ShouldSkipError := fun _ => false, IsBadRequest := fun _ => false,
        CircuitIncSum := runOnceCircuit } 10
      = .error .nilDereference :=
  ⟨fun _ _ => rfl,
    (IncSum_returns
      { Aggregator := { IncSumError := sumErr, sum := 10 },
        ShouldSkipError := fun _ => true, IsBadRequest := fun _ => true,
        CircuitIncSum := runOnceCircuit } 10 (fun _ _ => rfl)).1
      (fun berr h => (by cases h)) (fun h => (by cases h)),
    ((IncSum_returns
      { Aggregator := { IncSumError := some .nilSimpleBadRequest, sum := 10 },
        ShouldSkipError := fun _ => false, IsBadRequest := fun _ => false,
        CircuitIncSum := runOnceCircuit } 10 (fun _ _ => rfl)).2.2 rfl).trans rfl⟩

/-- C20: in the closure of the wrapper's `IncSum`, when `ShouldSkipError(e)` is true
nil is reported to the circuit (and `e` is kept in `skippedErr`) whatever
`IsBadRequest(e)` is; `e` is reported as a `circuit.SimpleBadRequest` exactly when
`ShouldSkipError(e)` is false and `IsBadRequest(e)` is true; with both false `e` is
reported unchanged. A wrapper built by `NewCircuitWrapperAggregator` from a
configuration with both predicates nil has predicates that are always false, and
reports `e` unchanged. -/
theorem IncSumClosure_precedence (w : CircuitWrapperAggregator) (p1 : Int)
    (vars : ClosureVars) :
    (w.ShouldSkipError vars.Aggregator.IncSumError = true →
      (w.IncSumClosure p1 vars).1 = none ∧
      (w.IncSumClosure p1 vars).2.skippedErr = vars.Aggregator.IncSumError) ∧
    ((w.IncSumClosure p1 vars).1 = some (.SimpleBadRequest vars.Aggregator.IncSumError) ↔
      w.ShouldSkipError vars.Aggregator.IncSumError = false ∧
      w.IsBadRequest vars.Aggregator.IncSumError = true) ∧
    (w.ShouldSkipError vars.Aggregator.IncSumError = false →
      w.IsBadRequest vars.Aggregator.IncSumError = false →
      (w.IncSumClosure p1 vars).1 = vars.Aggregator.IncSumError) ∧
    (∀ (κ : Type) (manager : Manager κ) (embedded : Aggregator)
        (conf : CircuitWrapperAggregatorConfig κ) (w' : CircuitWrapperAggregator),
      conf.ShouldSkipError = none → conf.IsBadRequest = none →
      NewCircuitWrapperAggregator manager embedded conf = .ok w' →
      (∀ e, w'.ShouldSkipError e = false ∧ w'.IsBadRequest e = false) ∧
      (w'.IncSumClosure p1 vars).1 = vars.Aggregator.IncSumError) := by
  refine ⟨?_, ?_, ?_, ?_⟩
  · intro hs
    rw [IncSumClosure_eq]
    simp [hs]
  · rw [IncSumClosure_eq]
    cases hs : w.ShouldSkipError vars.Aggregator.IncSumError
    · cases hb : w.IsBadRequest vars.Aggregator.IncSumError
      · simp only [Bool.false_eq_true, if_false, and_false, iff_false]
        exact fun h => simpleBadRequest_ne_self _ h.symm
      · simp
    · simp
  · intro hs hb
    rw [IncSumClosure_eq]
    simp [hs, hb]
  · intro κ manager embedded conf w' hs hb hnew
    unfold NewCircuitWrapperAggregator at hnew
    simp only [hs, hb] at hnew
    cases hc : manager.CreateCircuit (conf.Prefix ++ "Aggregator.IncSum")
        [conf.CircuitIncSum, conf.Defaults] with
    | error err => rw [hc] at hnew; cases hnew
    | ok circuit =>
      rw [hc] at hnew
      simp only [Except.ok.injEq] at hnew
      subst hnew
      refine ⟨fun e => ⟨rfl, rfl⟩, ?_⟩
      rw [IncSumClosure_eq]
      simp

/-- The configuration of `TestAggregatorStruct`, which sets neither predicate, and a
wrapper whose predicates are both true. -/
theorem IncSumClosure_precedence_witness :
    (CircuitWrapperAggregator.IncSumClosure
      { Aggregator := { IncSumError := sumErr, sum := 0 },
        ShouldSkipError := fun _ => true, IsBadRequest := fun _ => true,
        CircuitIncSum := runOnceCircuit } 10
      { skippedErr := none, Aggregator := { IncSumError := sumErr, sum := 0 } }).1 = none ∧
    ∃ w', NewCircuitWrapperAggregator runOnceManager { IncSumError := sumErr, sum := 0 }
        { ShouldSkipError := none, IsBadRequest := none, Prefix := "",
          Defaults := (), CircuitIncSum := () } = .ok w' ∧
      (w'.IncSumClosure 10
        { skippedErr := none, Aggregator := { IncSumError := sumErr, sum := 0 } }).1 = sumErr :=
  ⟨((IncSumClosure_precedence
      { Aggregator := { IncSumError := sumErr, sum := 0 },
        ShouldSkipError := fun _ => true, IsBadRequest := fun _ => true,
        CircuitIncSum := runOnceCircuit } 10
      { skippedErr := none, Aggregator := { IncSumError := sumErr, sum := 0 } }).1 rfl).1,
   ⟨_, rfl, ((IncSumClosure_precedence
      { Aggregator := { IncSumError := sumErr, sum := 0 },
        ShouldSkipError := fun _ => true, IsBadRequest := fun _ => true,
        CircuitIncSum := runOnceCircuit } 10
      { skippedErr := none, Aggregator := { IncSumError := sumErr, sum := 0 } }).2.2.2
      Unit runOnceManager { IncSumError := sumErr, sum := 0 }
      { ShouldSkipError := none, IsBadRequest := none, Prefix := "",
        Defaults := (), CircuitIncSum := () } _ rfl rfl rfl).2⟩⟩

/-! ## The call arguments and the declared names -/

/-- C21: `CallSignatureWithClosure` is its arguments joined by ", ". For a non-variadic
method argument 0 is `ctx` and argument `i ≥ 1` is `p<i>`; for a variadic method with
`k + 1` parameters the arguments before the last are the same and the last is
`p<k>...`; without parameters the text is empty. For `IncSum` it is `ctx, p1`. -/
theorem CallSignatureWithClosure_spec (m : Method) :
    (m.Variadic = false →
      m.CallSignatureWithClosure = String.intercalate ", "
        ((List.range m.Params.length).map
          (fun i => if i = 0 then "ctx" else "p" ++ toString i))) ∧
    (m.Variadic = true → ∀ k, m.Params.length = k + 1 →
      m.CallSignatureWithClosure = String.intercalate ", "
        ((List.range k).map (fun i => if i = 0 then "ctx" else "p" ++ toString i)
          ++ ["p" ++ toString k ++ "..."])) ∧
    (m.Params.length = 0 → m.CallSignatureWithClosure = "") ∧
    (Method.mk "IncSum" [⟨"context.Context", "Context", true⟩, ⟨"int", "int", false⟩]
      [⟨"error", "error", true⟩] false).CallSignatureWithClosure = "ctx, p1" := by
  refine ⟨fun hv => ?_, fun hv k hk => ?_, fun h0 => ?_, rfl⟩
  · exact CallSignatureWithClosure_nonvariadic m hv
  · exact CallSignatureWithClosure_variadic m k hv hk
  · unfold Method.CallSignatureWithClosure
    rw [h0]
    rfl

/-- The variadic method `Publish` of `Publisher`. -/
theorem CallSignatureWithClosure_spec_witness :
    (Method.mk "Publish"
        [⟨"context.Context", "Context", true⟩,
         ⟨"map[circuitgentest.Seed][][]circuitgentest.Grant", "map[Seed][][]Grant", false⟩,
         ⟨"circuitgentest.TopicsList", "TopicsList", false⟩,
         ⟨"[]rep.PublishOption", "[]PublishOption", false⟩]
        [⟨"error", "error", true⟩] true).CallSignatureWithClosure = "ctx, p1, p2, p3..." :=
  (CallSignatureWithClosure_spec
    (Method.mk "Publish"
        [⟨"context.Context", "Context", true⟩,
         ⟨"map[circuitgentest.Seed][][]circuitgentest.Grant", "map[Seed][][]Grant", false⟩,
         ⟨"circuitgentest.TopicsList", "TopicsList", false⟩,
         ⟨"[]rep.PublishOption", "[]PublishOption", false⟩]
        [⟨"error", "error", true⟩] true)).2.1 rfl 3 rfl

/-- Loops whose bodies agree on the elements of the list agree. -/
theorem foldlM_congr_mem {α : Type} (f g : String → α → Except Panic String) (xs : List α)
    (s0 : String) (h : ∀ s, ∀ x ∈ xs, f s x = g s x) :
    xs.foldlM f s0 = xs.foldlM g s0 := by
  induction xs generalizing s0 with
  | nil => rfl
  | cons x xs ih =>
    rw [List.foldlM_cons, List.foldlM_cons, h s0 x (List.mem_cons_self _ _)]
    cases g s0 x with
    | error e => rfl
    | ok s => exact ih s (fun s y hy => h s y (List.mem_cons_of_mem _ hy))

/-- With the override `ctx`, `ParamsSignature` names the parameters `ctx, p1, p2, ...`:
giving these names as overrides changes nothing. -/
theorem ParamsSignature_ctx_names (m : Method) :
    m.ParamsSignature ["ctx"]
      = m.ParamsSignature ((List.range m.Params.length).map callArg) := by
  unfold Method.ParamsSignature
  apply foldlM_congr_mem
  intro s i hi
  have hi' : i < m.Params.length := List.mem_range.1 hi
  have hname : (if h : i < ["ctx"].length then ["ctx"][i] else "p" ++ toString i)
      = (if h : i < ((List.range m.Params.length).map callArg).length
          then ((List.range m.Params.length).map callArg)[i] else "p" ++ toString i) := by
    have hlen : i < ((List.range m.Params.length).map callArg).length := by simpa using hi'
    rw [dif_pos hlen]
    by_cases h0 : i = 0
    · subst h0; simp [callArg]
    · have h1 : ¬ i < ["ctx"].length := by simp; omega
      rw [dif_neg h1]
      simp [callArg, h0]
  unfold Method.ParamsSignatureStep
  simp only [hname]

/-- C23, the code at the failing input: `WaitAll(ctxs ...context.Context) error` passes
`IsWrappingSupported`, `ParamsSignature("ctx")` declares its parameter as `ctx` and
`CallSignatureWithClosure` passes `p0...`. For every method `ParamsSignature("ctx")`
declares `ctx, p1, p2, ...`, and `CallSignatureWithClosure` passes these names when the
method is not variadic or has at least two parameters. -/
theorem wrapper_names_disagree :
    mWaitAll.IsWrappingSupported = .ok true ∧
    mWaitAll.ParamsSignature ["ctx"] = .ok "ctx ...context.Context" ∧
    mWaitAll.CallSignatureWithClosure = "p0..." ∧
    (∀ m : Method, m.ParamsSignature ["ctx"]
      = m.ParamsSignature ((List.range m.Params.length).map callArg)) ∧
    (∀ m : Method, m.Variadic = false →
      m.CallSignatureWithClosure
        = String.intercalate ", " ((List.range m.Params.length).map callArg)) ∧
    (∀ (m : Method) (k : Nat), m.Variadic = true → m.Params.length = k + 2 →
      m.CallSignatureWithClosure
        = String.intercalate ", "
            ((List.range (k + 1)).map callArg ++ [callArg (k + 1) ++ "..."])) := by
  refine ⟨rfl, rfl, rfl, ParamsSignature_ctx_names, CallSignatureWithClosure_nonvariadic, ?_⟩
  intro m k hv hl
  rw [CallSignatureWithClosure_variadic m (k + 1) hv hl]
  rfl

/-! ## Deduplication and what `parseImports` keeps -/

/-- The keys of the map of `uniqueStringSlice` stay the elements of `paths`. -/
theorem uniqueStringSlice_foldl_keys (s : List String) (st : List String × List String)
    (hkeys : ∀ x, x ∈ st.1 ↔ x ∈ st.2) :
    ∀ x, x ∈ (s.foldl uniqueStringSliceStep st).1 ↔ x ∈ (s.foldl uniqueStringSliceStep st).2 := by
  induction s generalizing st with
  | nil => simpa using hkeys
  | cons p ps ih =>
    simp only [List.foldl_cons]
    apply ih
    intro x
    by_cases hp : p ∈ st.1
    · simp [uniqueStringSliceStep, hp, hkeys x]
    · simp [uniqueStringSliceStep, hp, hkeys x, or_comm]

/-- The last string of a slice is kept exactly when it does not occur before. -/
theorem uniqueStringSlice_concat (pre : List String) (x : String) :
    uniqueStringSlice (pre ++ [x])
      = if x ∈ pre then uniqueStringSlice pre else uniqueStringSlice pre ++ [x] := by
  have hkeys := uniqueStringSlice_foldl_keys pre ([], []) (by simp) x
  have hmem := mem_uniqueStringSlice pre x
  unfold uniqueStringSlice at hmem ⊢
  rw [List.foldl_append, List.foldl_cons, List.foldl_nil]
  by_cases hx : x ∈ pre
  · have h1 : x ∈ (pre.foldl uniqueStringSliceStep ([], [])).1 := hkeys.2 (hmem.2 hx)
    simp [uniqueStringSliceStep, h1, hx]
  · have h1 : x ∉ (pre.foldl uniqueStringSliceStep ([], [])).1 :=
      fun h => hx (hmem.1 (hkeys.1 h))
    simp [uniqueStringSliceStep, h1, hx]

/-- The result of `uniqueStringSlice`, by positions. -/
theorem uniqueStringSlice_eq_filter (s : List String) :
    uniqueStringSlice s
      = (s.enum.filter (fun it => decide (it.2 ∉ s.take it.1))).map Prod.snd := by
  induction s using List.reverseRecOn with
  | nil => rfl
  | append_singleton pre x ih =>
    rw [uniqueStringSlice_concat, List.enum_append, List.filter_append, List.map_append]
    have hpre : (pre.enum.filter (fun it => decide (it.2 ∉ (pre ++ [x]).take it.1)))
        = pre.enum.filter (fun it => decide (it.2 ∉ pre.take it.1)) := by
      apply List.filter_congr
      intro it hit
      have hlt : it.1 < pre.length := List.fst_lt_of_mem_enum hit
      rw [List.take_append_of_le_length (Nat.le_of_lt hlt)]
    rw [hpre, ← ih]
    by_cases hx : x ∈ pre
    · simp [hx, List.enumFrom]
    · simp [hx, List.enumFrom]

/-- C22: `uniqueStringSlice s` has no duplicates, has the elements of `s`, is a
sub-list of `s`, and is made of the strings at the positions `i` where `s[i]` does not
occur in `s[0..i)`, in order; so the last string of a slice is kept exactly when it
does not occur before it. -/
theorem uniqueStringSlice_first_occurrences (s : List String) :
    (uniqueStringSlice s).Nodup ∧
    (∀ x, x ∈ uniqueStringSlice s ↔ x ∈ s) ∧
    (uniqueStringSlice s).Sublist s ∧
    uniqueStringSlice s
      = (s.enum.filter (fun it => decide (it.2 ∉ s.take it.1))).map Prod.snd ∧
    (∀ pre x, uniqueStringSlice (pre ++ [x])
      = if x ∈ pre then uniqueStringSlice pre else uniqueStringSlice pre ++ [x]) := by
  refine ⟨nodup_uniqueStringSlice s, mem_uniqueStringSlice s, ?_,
    uniqueStringSlice_eq_filter s, uniqueStringSlice_concat⟩
  rw [uniqueStringSlice_eq_filter]
  have h1 : ((s.enum.filter (fun it => decide (it.2 ∉ s.take it.1))).map Prod.snd).Sublist
      (s.enum.map Prod.snd) := (List.filter_sublist _).map _
  simpa [List.enum_map_snd] using h1

/-- The paths that the methods of `Publisher` yield, deduplicated. -/
theorem uniqueStringSlice_first_occurrences_witness :
    uniqueStringSlice ["context", "a", "a", "a", "rep", "context", "rep", "model"]
      = ["context", "a", "rep", "model"] ∧
    (uniqueStringSlice ["context", "a", "a", "a", "rep", "context", "rep", "model"]).Nodup :=
  ⟨rfl, (uniqueStringSlice_first_occurrences
    ["context", "a", "a", "a", "rep", "context", "rep", "model"]).1⟩

/-- C24: when `parseImports` succeeds, every path that `resolvePkgPaths` yields for
the signature of a method of the method set, and that differs from the output path,
is the path of a returned Import. -/
theorem parseImports_keeps_needed (t : GoType) (mset : List Selection) (out : String)
    (imports : List Import) (h : parseImports t mset out = .ok imports)
    (m : Selection) (hm : m ∈ mset) (paths : List String)
    (hp : resolvePkgPaths m.Typ = .ok paths) (x : String) (hx : x ∈ paths) (hne : x ≠ out) :
    Import.mk x ∈ imports := by
  rw [parseImports_eq] at h
  cases hpp : parseImportsPaths mset [] with
  | error e => rw [hpp] at h; cases h
  | ok pkgPaths =>
    rw [hpp] at h
    simp only [Except.ok.injEq] at h
    subst h
    have hmem : x ∈ pkgPaths :=
      (mem_parseImportsPaths mset [] pkgPaths hpp x).2 (Or.inr ⟨m, hm, paths, hp, hx⟩)
    apply List.mem_append_right
    apply List.mem_map_of_mem
    rw [List.mem_filter]
    refine ⟨(mem_uniqueStringSlice _ _).2 hmem, ?_⟩
    simp [hne]

/-- `Publisher` wrapped inside its own package keeps `rep`, which `Publish` needs. -/
theorem parseImports_keeps_needed_witness :
    parseImports tPublisher publisherMethods pkgCircuitgentest.Path
      = .ok [⟨"context"⟩, ⟨pkgRep.Path⟩, ⟨pkgModel.Path⟩] ∧
    selPublish ∈ publisherMethods ∧
    resolvePkgPaths selPublish.Typ
      = .ok ["context", pkgCircuitgentest.Path, pkgCircuitgentest.Path,
             pkgCircuitgentest.Path, pkgRep.Path] ∧
    pkgRep.Path ≠ pkgCircuitgentest.Path ∧
    Import.mk pkgRep.Path ∈ [Import.mk "context", ⟨pkgRep.Path⟩, ⟨pkgModel.Path⟩] :=
  ⟨rfl, by simp [publisherMethods], rfl, by decide,
    parseImports_keeps_needed tPublisher publisherMethods pkgCircuitgentest.Path _ rfl
      selPublish (by simp [publisherMethods])
      ["context", pkgCircuitgentest.Path, pkgCircuitgentest.Path, pkgCircuitgentest.Path,
       pkgRep.Path] rfl pkgRep.Path (by decide) (by decide)⟩

/-- Cutting the last element off an empty slice panics. -/
theorem sliceTo_nil {α : Type} :
    sliceTo ([] : List α) ((([] : List α).length : Int) - 1) = .error .sliceBoundsOutOfRange := by
  rfl

/-- C25: with at least one result (as every method that passes `IsWrappingSupported`
has) `ResultsClosureVariableDeclarations`, `ResultsCircuitVariableAssignments` and
`ResultsClosureVariableReturns` return without panic; without result the slice
`Results[:len(Results)-1]` is out of range and each of the three panics. -/
theorem results_slice_in_range (m : Method) :
    (m.Results ≠ [] →
      (∃ s, m.ResultsClosureVariableDeclarations = .ok s) ∧
      (∃ s, m.ResultsCircuitVariableAssignments = .ok s) ∧
      (∃ s, m.ResultsClosureVariableReturns = .ok s)) ∧
    (m.IsWrappingSupported = .ok true → m.Results ≠ []) ∧
    (m.Results = [] →
      m.ResultsClosureVariableDeclarations = .error .sliceBoundsOutOfRange ∧
      m.ResultsCircuitVariableAssignments = .error .sliceBoundsOutOfRange ∧
      m.ResultsClosureVariableReturns = .error .sliceBoundsOutOfRange) := by
  refine ⟨?_, ?_, ?_⟩
  · intro hne
    obtain ⟨init, last, hil⟩ : ∃ init last, m.Results = init ++ [last] := by
      rcases List.eq_nil_or_concat m.Results with h' | ⟨init, last, h'⟩
      · exact absurd h' hne
      · exact ⟨init, last, by simpa using h'⟩
    refine ⟨?_, ?_, ?_⟩
    · unfold Method.ResultsClosureVariableDeclarations
      rw [hil, sliceTo_concat]
      exact ⟨_, rfl⟩
    · unfold Method.ResultsCircuitVariableAssignments
      rw [hil, sliceTo_concat]
      exact ⟨_, rfl⟩
    · unfold Method.ResultsClosureVariableReturns
      rw [hil, sliceTo_concat]
      exact ⟨_, rfl⟩
  · intro hw hnil
    unfold Method.IsWrappingSupported at hw
    simp [hnil] at hw
  · intro hnil
    refine ⟨?_, ?_, ?_⟩
    · unfold Method.ResultsClosureVariableDeclarations
      rw [hnil, sliceTo_nil]
    · unfold Method.ResultsCircuitVariableAssignments
      rw [hnil, sliceTo_nil]
    · unfold Method.ResultsClosureVariableReturns
      rw [hnil, sliceTo_nil]

/-- The methods `IncSum`, with one result, and a method without result. -/
theorem results_slice_in_range_witness :
    (Method.mk "IncSum" [⟨"context.Context", "Context", true⟩, ⟨"int", "int", false⟩]
        [⟨"error", "error", true⟩] false).ResultsCircuitVariableAssignments = .ok "err" ∧
    (Method.mk "Reset" [] [] false).ResultsClosureVariableReturns
      = .error .sliceBoundsOutOfRange :=
  ⟨rfl, ((results_slice_in_range (Method.mk "Reset" [] [] false)).2.2 rfl).2.2⟩

/-! ## Termination of the traversal -/

mutual
/-- With a bound of at least the call depth of the type, the bounded run returns what
`resolvePkgPaths` returns. -/
theorem resolvePkgPathsFuel_eq (t : GoType) (fuel : Nat) (h : callDepth t ≤ fuel) :
    resolvePkgPathsFuel t fuel = some (resolvePkgPaths t) := by
  cases fuel with
  | zero => cases t <;> simp [callDepth] at h
  | succ fuel =>
    cases t with
    | Basic n => rw [resolvePkgPathsFuel, resolvePkgPaths]
    | Named pkg n => cases pkg <;> rw [resolvePkgPathsFuel, resolvePkgPaths]
    | Pointer elem =>
      rw [resolvePkgPathsFuel, resolvePkgPaths]
      exact resolvePkgPathsFuel_eq elem fuel (by simp only [callDepth] at h; omega)
    | Slice elem =>
      rw [resolvePkgPathsFuel, resolvePkgPaths]
      exact resolvePkgPathsFuel_eq elem fuel (by simp only [callDepth] at h; omega)
    | Array n elem => rw [resolvePkgPathsFuel, resolvePkgPaths]
    | Map key elem =>
      simp only [callDepth] at h
      rw [resolvePkgPathsFuel, resolvePkgPaths,
        resolvePkgPathsFuel_eq key fuel (by omega),
        resolvePkgPathsFuel_eq elem fuel (by omega)]
      cases resolvePkgPaths key with
      | error e => rfl
      | ok kp =>
        cases resolvePkgPaths elem with
        | error e => rfl
        | ok ep => rfl
    | Chan elem => rw [resolvePkgPathsFuel, resolvePkgPaths]
    | Signature ps rs v =>
      simp only [callDepth] at h
      rw [resolvePkgPathsFuel, resolvePkgPaths,
        resolvePkgPathsTupleFuel_eq ps [] fuel (by omega)]
      cases resolvePkgPathsTuple ps [] with
      | error e => rfl
      | ok r =>
        simp only
        rw [resolvePkgPathsTupleFuel_eq rs r fuel (by omega)]
        cases resolvePkgPathsTuple rs r with
        | error e => rfl
        | ok r' => rfl
    | Interface ms => rw [resolvePkgPathsFuel, resolvePkgPaths]
    | Struct fs => rw [resolvePkgPathsFuel, resolvePkgPaths]
/-- The same for the loop over a tuple. -/
theorem resolvePkgPathsTupleFuel_eq (ts : List GoType) (r : List String) (fuel : Nat)
    (h : callDepthTuple ts ≤ fuel) :
    resolvePkgPathsTupleFuel ts r fuel = some (resolvePkgPathsTuple ts r) := by
  cases ts with
  | nil => rw [resolvePkgPathsTupleFuel, resolvePkgPathsTuple]
  | cons t ts =>
    simp only [callDepthTuple] at h
    rw [resolvePkgPathsTupleFuel, resolvePkgPathsTuple,
      resolvePkgPathsFuel_eq t fuel (by omega)]
    cases resolvePkgPaths t with
    | error e => rfl
    | ok paths =>
      simp only
      exact resolvePkgPathsTupleFuel_eq ts _ fuel (by omega)
end

/-- C26: `resolvePkgPaths` returns on every type, within a call depth of `callDepth t`:
run with any bound of at least that depth it returns the value of `resolvePkgPaths`.
A named type returns within one call, whatever its underlying type; every type the
function enters (element, key, parameter, result) has a smaller call depth than the
type it is part of. -/
theorem resolvePkgPaths_terminates (t : GoType) :
    (∀ fuel, callDepth t ≤ fuel → resolvePkgPathsFuel t fuel = some (resolvePkgPaths t)) ∧
    (∃ r, resolvePkgPathsFuel t (callDepth t) = some r) ∧
    (∀ pkg name fuel, resolvePkgPathsFuel (.Named pkg name) (fuel + 1)
      = some (resolvePkgPaths (.Named pkg name))) ∧
    (∀ elem, callDepth elem < callDepth (.Pointer elem) ∧
      callDepth elem < callDepth (.Slice elem)) ∧
    (∀ key elem, callDepth key < callDepth (.Map key elem) ∧
      callDepth elem < callDepth (.Map key elem)) ∧
    (∀ params results variadic, ∀ x ∈ params ++ results,
      callDepth x < callDepth (.Signature params results variadic)) := by
  refine ⟨fun fuel h => resolvePkgPathsFuel_eq t fuel h,
    ⟨_, resolvePkgPathsFuel_eq t _ (Nat.le_refl _)⟩,
    fun pkg name fuel => resolvePkgPathsFuel_eq _ _ (by simp [callDepth]),
    fun elem => by simp [callDepth], fun key elem => by simp only [callDepth]; omega, ?_⟩
  intro ps rs v x hx
  have hmem : ∀ (ts : List GoType), x ∈ ts → callDepth x ≤ callDepthTuple ts := by
    intro ts
    induction ts with
    | nil => intro h; cases h
    | cons a l ih =>
      intro h
      simp only [callDepthTuple]
      rcases List.mem_cons.1 h with rfl | h'
      · omega
      · have := ih h'; omega
  simp only [callDepth]
  rcases List.mem_append.1 hx with h | h
  · have := hmem ps h; omega
  · have := hmem rs h; omega

/-- The type `*Node` of a list node that refers to itself: two calls deep. -/
theorem resolvePkgPaths_terminates_witness :
    callDepth (.Pointer tNode) ≤ 2 ∧
    resolvePkgPathsFuel (.Pointer tNode) 2 = some (.ok ["svc"]) :=
  ⟨by decide, ((resolvePkgPaths_terminates (.Pointer tNode)).1 2 (by decide)).trans rfl⟩

/-! ## `stripVendor` -/

/-- `strings.Index` returns -1 exactly when the substring does not occur. -/
theorem stringsIndex_eq_none_iff (s sub : List Char) :
    stringsIndex s sub = none ↔ ¬ sub <:+: s := by
  induction s with
  | nil =>
    by_cases h : sub = []
    · simp [stringsIndex, h]
    · simp [stringsIndex, h]
  | cons c cs ih =>
    rw [stringsIndex, List.infix_cons_iff]
    by_cases hp : sub.isPrefixOf (c :: cs) = true
    · have hp' : sub <+: c :: cs := List.isPrefixOf_iff_prefix.1 hp
      simp [hp, hp']
    · have hp' : ¬ sub <+: c :: cs := fun h => hp (List.isPrefixOf_iff_prefix.2 h)
      simp only [hp, Bool.false_eq_true, if_false, Option.map_eq_none', ih, hp', false_or]

/-- When `strings.Index` finds the substring at `i`, the string is `i` characters, the
substring, and a rest. -/
theorem stringsIndex_eq_some (s sub : List Char) (i : Nat) (h : stringsIndex s sub = some i) :
    ∃ pre rest, s = pre ++ sub ++ rest ∧ pre.length = i := by
  induction s generalizing i with
  | nil =>
    by_cases hs : sub = []
    · simp only [stringsIndex, hs, if_true, Option.some.injEq] at h
      exact ⟨[], [], by simp [hs], by simpa using h⟩
    · simp [stringsIndex, hs] at h
  | cons c cs ih =>
    rw [stringsIndex] at h
    by_cases hp : sub.isPrefixOf (c :: cs) = true
    · simp only [hp, if_true, Option.some.injEq] at h
      obtain ⟨rest, hrest⟩ := List.isPrefixOf_iff_prefix.1 hp
      exact ⟨[], rest, by simpa using hrest.symm, by simpa using h⟩
    · simp only [hp, Bool.false_eq_true, if_false, Option.map_eq_some'] at h
      obtain ⟨j, hj, rfl⟩ := h
      obtain ⟨pre, rest, hs, hlen⟩ := ih j hj
      exact ⟨c :: pre, rest, by simp [hs], by simp [hlen]⟩

/-- C27, the code at the failing input: on a path with two vendor directories
`stripVendor` cuts after the first one only, so the result still holds "/vendor/" and
a second application changes it. A path without "/vendor/" is returned unchanged, and
a path with one is cut after an occurrence of it. -/
theorem stripVendor_nested_vendor :
    stripVendor "github.com/a/vendor/github.com/b/vendor/github.com/c"
      = "github.com/b/vendor/github.com/c" ∧
    vendor.data <:+:
      (stripVendor "github.com/a/vendor/github.com/b/vendor/github.com/c").data ∧
    stripVendor (stripVendor "github.com/a/vendor/github.com/b/vendor/github.com/c")
      = "github.com/c" ∧
    stripVendor (stripVendor "github.com/a/vendor/github.com/b/vendor/github.com/c")
      ≠ stripVendor "github.com/a/vendor/github.com/b/vendor/github.com/c" ∧
    (∀ p : String, ¬ vendor.data <:+: p.data → stripVendor p = p) ∧
    (∀ p : String, vendor.data <:+: p.data →
      ∃ pre rest : String, p = pre ++ vendor ++ rest ∧ stripVendor p = rest) := by
  refine ⟨rfl, ?_, rfl, by decide, ?_, ?_⟩
  · exact ⟨"github.com/b".data, "github.com/c".data, rfl⟩
  · intro p hp
    unfold stripVendor
    rw [(stringsIndex_eq_none_iff _ _).2 hp]
  · intro p hp
    cases hi : stringsIndex p.data vendor.data with
    | none => exact absurd hp ((stringsIndex_eq_none_iff _ _).1 hi)
    | some i =>
      obtain ⟨pre, rest, hs, hlen⟩ := stringsIndex_eq_some _ _ i hi
      refine ⟨⟨pre⟩, ⟨rest⟩, ?_, ?_⟩
      · apply String.ext
        simpa using hs
      · unfold stripVendor
        rw [hi]
        simp only
        apply String.ext
        simp only
        rw [hs, ← hlen, ← List.length_append, List.drop_left]

/-! ## The traversal rule, with the entry of a named type -/

/-- The offset `strings.Index` returns is that of the first occurrence. -/
theorem stringsIndex_le (s sub : List Char) (i : Nat) (h : stringsIndex s sub = some i)
    (pre rest : List Char) (hs : s = pre ++ sub ++ rest) : i ≤ pre.length := by
  induction s generalizing i pre with
  | nil =>
    by_cases hsub : sub = []
    · simp only [stringsIndex, hsub, if_true, Option.some.injEq] at h
      omega
    · simp [stringsIndex, hsub] at h
  | cons c cs ih =>
    rw [stringsIndex] at h
    by_cases hp : sub.isPrefixOf (c :: cs) = true
    · simp only [hp, if_true, Option.some.injEq] at h
      omega
    · simp only [hp, Bool.false_eq_true, if_false, Option.map_eq_some'] at h
      obtain ⟨j, hj, rfl⟩ := h
      cases pre with
      | nil =>
        exfalso
        apply hp
        rw [List.isPrefixOf_iff_prefix]
        exact ⟨rest, by simpa using hs.symm⟩
      | cons d pre' =>
        simp only [List.cons_append, List.cons.injEq] at hs
        have := ih j hj pre' hs.2
        simp only [List.length_cons]
        omega

/-- What `stripVendor` returns: the path itself when "/vendor/" does not occur in it,
the part after the first occurrence otherwise. -/
theorem stripVendor_eq (path : String) :
    (¬ vendor.data <:+: path.data → stripVendor path = path) ∧
    (vendor.data <:+: path.data →
      ∃ pre rest : String, path = pre ++ vendor ++ rest ∧ stripVendor path = rest ∧
        ∀ pre' rest' : String, path = pre' ++ vendor ++ rest' → pre.length ≤ pre'.length) := by
  constructor
  · intro hp
    unfold stripVendor
    rw [(stringsIndex_eq_none_iff _ _).2 hp]
  · intro hp
    cases hi : stringsIndex path.data vendor.data with
    | none => exact absurd hp ((stringsIndex_eq_none_iff _ _).1 hi)
    | some i =>
      obtain ⟨pre, rest, hs, hlen⟩ := stringsIndex_eq_some _ _ i hi
      refine ⟨⟨pre⟩, ⟨rest⟩, ?_, ?_, ?_⟩
      · apply String.ext
        simpa using hs
      · unfold stripVendor
        rw [hi]
        simp only
        apply String.ext
        simp only
        rw [hs, ← hlen, ← List.length_append, List.drop_left]
      · intro pre' rest' hs'
        have hd : path.data = pre'.data ++ vendor.data ++ rest'.data := by
          rw [hs']; simp
        have := stringsIndex_le _ _ i hi pre'.data rest'.data hd
        simp only [String.length]
        omega


/-- C16, the code at the failing input: for a named type of the package
`github.com/a/vendor/github.com/b/vendor/github.com/c` the entry is
`github.com/b/vendor/github.com/c`, which still holds "/vendor/"; with one vendor
directory the entry is `github.com/b`. The traversal rule itself: a pointer yields
what its element yields; a map the paths of the key followed by those of the element;
a signature the paths of all parameters and then of all results, in order, stopping
at the first error; a named type exactly one entry, whatever its underlying type
(which the function never receives): the path of its package when "/vendor/" does
not occur in it, the part after the first occurrence otherwise; a named type without
package, a basic type, an interface literal and a struct literal nothing. -/
theorem resolvePkgPaths_traversal :
    resolvePkgPaths tNestedVendorClient = .ok ["github.com/b/vendor/github.com/c"] ∧
    vendor.data <:+: ("github.com/b/vendor/github.com/c" : String).data ∧
    resolvePkgPaths tVendoredClient = .ok ["github.com/b"] ∧
    (∀ elem, resolvePkgPaths (.Pointer elem) = resolvePkgPaths elem) ∧
    (∀ key elem, resolvePkgPaths (.Map key elem)
      = (do let keyPaths ← resolvePkgPaths key
            let elemPaths ← resolvePkgPaths elem
            pure (keyPaths ++ elemPaths))) ∧
    (∀ params results variadic, resolvePkgPaths (.Signature params results variadic)
      = (do let l ← (params ++ results).mapM resolvePkgPaths; pure l.flatten)) ∧
    (∀ pkg name, ∃ entry, resolvePkgPaths (.Named (some pkg) name) = .ok [entry] ∧
      (¬ vendor.data <:+: pkg.Path.data → entry = pkg.Path) ∧
      (vendor.data <:+: pkg.Path.data →
        ∃ pre rest : String, pkg.Path = pre ++ vendor ++ rest ∧ entry = rest ∧
          ∀ pre' rest' : String, pkg.Path = pre' ++ vendor ++ rest' →
            pre.length ≤ pre'.length)) ∧
    (∀ name, resolvePkgPaths (.Named none name) = .ok []) ∧
    (∀ name, resolvePkgPaths (.Basic name) = .ok []) ∧
    (∀ methods, resolvePkgPaths (.Interface methods) = .ok []) ∧
    (∀ fields, resolvePkgPaths (.Struct fields) = .ok []) := by
  refine ⟨rfl, ⟨"github.com/b".data, "github.com/c".data, rfl⟩, rfl,
    fun _ => by rw [resolvePkgPaths], ?_, ?_, ?_,
    fun _ => by rw [resolvePkgPaths], fun _ => by rw [resolvePkgPaths],
    fun _ => by rw [resolvePkgPaths], fun _ => by rw [resolvePkgPaths]⟩
  · intro key elem
    rw [resolvePkgPaths]
    cases resolvePkgPaths key with
    | error e => rfl
    | ok kp =>
      cases resolvePkgPaths elem with
      | error e => rfl
      | ok ep => rfl
  · intro ps rs v
    rw [resolvePkgPaths, resolvePkgPathsTuple_eq_mapM ps [], List.mapM_append]
    cases hps : ps.mapM resolvePkgPaths with
    | error e => rfl
    | ok l =>
      simp only [bind, Except.bind, pure, Except.pure, List.nil_append]
      rw [resolvePkgPathsTuple_eq_mapM]
      cases hrs : rs.mapM resolvePkgPaths with
      | error e => rfl
      | ok l' => simp [bind, Except.bind, pure, Except.pure]
  · intro pkg name
    exact ⟨stripVendor pkg.Path, by rw [resolvePkgPaths], (stripVendor_eq pkg.Path).1,
      (stripVendor_eq pkg.Path).2⟩

end Circuitgen
